import Mathlib

/-!
Shallow embedding of the PhysicsFS ZIP archiver (`src/archiver_zip.c`) and
verification of its natural-language specification.

Conventions of the embedding:
* machine integers (`PHYSFS_uint8/16/32/64`) are modelled as `Nat`, with an
  explicit `% 2 ^ w` wherever the C code can overflow or truncate;
* byte sources are modelled as `List Nat` of byte values together with an
  explicit read position;
* fallible C functions returning `0`/`NULL` plus a PhysicsFS error code are
  modelled as `Except ErrCode _`;
* the raw-DEFLATE decoder (zlib `inflate`), an external library, is modelled
  abstractly by the byte sequence it deterministically produces from the
  member's compressed stream, which the code always consumes strictly
  sequentially from the start of the member data.
-/

namespace PhysfsZip

/-- PhysicsFS error codes used by the ZIP archiver (`PHYSFS_ERR_*`). -/
inductive ErrCode where
  | ioError
  | outOfMemory
  | corrupt
  | notFound
  | pastEof
  | readOnly
  | badPassword
  | symlinkLoop
  | unsupported
  deriving DecidableEq

/-- Resolution states of a `ZIPentry` (`ZipResolveType` in the source). -/
inductive ZipResolveType where
  | unresolvedFile
  | unresolvedSymlink
  | resolving
  | resolved
  | directory
  | brokenFile
  | brokenSymlink
  deriving DecidableEq

/-- Entry names are byte-for-byte paths; we model them as lists of characters. -/
abbrev Name := List Char

/-- `COMPMETH_NONE`: the Stored (uncompressed) method. -/
def COMPMETH_NONE : Nat := 0

/-- `COMPMETH_AES`: sentinel compression method 99 announcing WinZip AES. -/
def COMPMETH_AES : Nat := 99

/-- `ZIP_AES_128_BITS` key-strength code. -/
def ZIP_AES_128_BITS : Nat := 1

/-- `ZIP_AES_192_BITS` key-strength code. -/
def ZIP_AES_192_BITS : Nat := 2

/-- `ZIP_AES_256_BITS` key-strength code. -/
def ZIP_AES_256_BITS : Nat := 3

/-- `UNIX_FILETYPE_MASK` (octal 0170000). -/
def UNIX_FILETYPE_MASK : Nat := 0o170000

/-- `UNIX_FILETYPE_SYMLINK` (octal 0120000). -/
def UNIX_FILETYPE_SYMLINK : Nat := 0o120000

/-- `ZIP_LOCAL_FILE_SIG`. -/
def ZIP_LOCAL_FILE_SIG : Nat := 0x04034b50

/-- One `ZIPentry` of the in-memory index.  Tree links (`children`,
`sibling`, `hashnext`) are represented positionally by the entry lists of the
models below; `symlink` stores the *name* of the entry pointed to, standing
for the C pointer.  `aes_salt`/`aes_pass_verification`/`aes_compression`
mirror `ZIP_AES_Data`. -/
structure ZIPentry where
  name : Name
  resolved : ZipResolveType
  offset : Nat
  version : Nat
  version_needed : Nat
  general_bits : Nat
  compression_method : Nat
  crc : Nat
  compressed_size : Nat
  uncompressed_size : Nat
  last_mod_time : Int
  dos_mod_time : Nat
  symlink : Option Name
  aes_key_strength : Nat
  aes_salt : List Nat
  aes_pass_verification : Nat
  aes_compression : Nat
  deriving DecidableEq

/-- `zip_entry_is_tradional_crypto`: bit 0 of the general-purpose bits. -/
def zip_entry_is_tradional_crypto (e : ZIPentry) : Bool :=
  e.general_bits &&& 1 ≠ 0

/-- `zip_entry_ignore_local_header`: bit 3 of the general-purpose bits. -/
def zip_entry_ignore_local_header (e : ZIPentry) : Bool :=
  e.general_bits &&& 8 ≠ 0

/-- `ZIP_IS_AES(entry)`: `entry->aes_data.key_strength > ZIP_AES_128_BITS`. -/
def ZIP_IS_AES (e : ZIPentry) : Bool :=
  e.aes_key_strength > ZIP_AES_128_BITS

/-- `zip_crypto_crc32`: one byte step of the reflected CRC-32
(polynomial 0xEDB88320) used by the traditional PKWARE cipher. -/
def zip_crypto_crc32 (crc val : Nat) : Nat :=
  let xorval := (crc ^^^ val) &&& 0xFF
  let xorval := (List.range 8).foldl
    (fun x _ => if x % 2 = 1 then 0xEDB88320 ^^^ (x / 2) else x / 2) xorval
  xorval ^^^ (crc / 256)

/-- The three 32-bit keys of the traditional PKWARE cipher state. -/
structure CryptoKeys where
  k0 : Nat
  k1 : Nat
  k2 : Nat
  deriving DecidableEq

/-- `zip_update_crypto_keys`: absorb one (plaintext) byte into the key state.
`keys[1]` arithmetic is 32-bit, hence the `% 2 ^ 32`. -/
def zip_update_crypto_keys (k : CryptoKeys) (val : Nat) : CryptoKeys :=
  let k0 := zip_crypto_crc32 k.k0 val
  let k1 := (k.k1 + (k0 &&& 0xFF)) % 2 ^ 32
  let k1 := (k1 * 134775813 + 1) % 2 ^ 32
  let k2 := zip_crypto_crc32 k.k2 ((k1 / 2 ^ 24) &&& 0xFF)
  ⟨k0, k1, k2⟩

/-- `zip_decrypt_byte`: the keystream byte derived from the current keys.
`tmp` is a `PHYSFS_uint16`, hence the truncation of `keys[2]`. -/
def zip_decrypt_byte (k : CryptoKeys) : Nat :=
  let tmp := (k.k2 &&& 0xFFFF) ||| 2
  ((tmp * (tmp ^^^ 1)) / 256) % 256

/-- The initial key vector of `zip_prep_crypto_keys` after absorbing the
password: defaults `(305419896, 591751049, 878082192)`, then one
`zip_update_crypto_keys` per password byte. -/
def zip_initial_keys (password : List Nat) : CryptoKeys :=
  password.foldl zip_update_crypto_keys ⟨305419896, 591751049, 878082192⟩

/-- The per-byte decrypt-and-update loop shared by `zip_read_decrypt` (classic
branch) and `zip_prep_crypto_keys`: each ciphertext byte is XORed with the
keystream byte and the resulting plaintext byte is absorbed into the keys.
Returns the plaintext and the final key state. -/
def zip_decrypt_list (keys : CryptoKeys) (ct : List Nat) : List Nat × CryptoKeys :=
  match ct with
  | [] => ([], keys)
  | c :: rest =>
    let ch := (c ^^^ zip_decrypt_byte keys) &&& 0xFF
    let r := zip_decrypt_list (zip_update_crypto_keys keys ch) rest
    (ch :: r.1, r.2)

/-- `zip_prep_crypto_keys`: initialise the keys from the password, decrypt the
12-byte crypto header, and compare the final decrypted byte against the
verifier (`(dos_mod_time >> 8) & 0xFF` if general-purpose bit 3 is set,
`(crc >> 24) & 0xFF` otherwise).  On mismatch fail `BadPassword`; on success
return the keys (the code also saves them as `initial_crypto_keys`). -/
def zip_prep_crypto_keys (e : ZIPentry) (crypto_header : List Nat)
    (password : List Nat) : Except ErrCode CryptoKeys :=
  let usedate := zip_entry_ignore_local_header e
  let verifier := (if usedate then e.dos_mod_time / 2 ^ 8 else e.crc / 2 ^ 24) &&& 0xFF
  let keys := zip_initial_keys password
  let r := zip_decrypt_list keys crypto_header
  let finalbyte := r.1.getLastD 0
  if finalbyte ≠ verifier then .error .badPassword else .ok r.2

/-- `zip_version_does_symlinks`: hosts that can produce symlink attributes.
The excluded host codes are FAT (0), AMIGA (1), VMS (2), VM_CSM (4),
HPFS (6), NTFS (11), ACORN (13), VFAT (14), MVS (15) and THEOS (18); every
other made-by host is assumed unix-like. -/
def zip_version_does_symlinks (version : Nat) : Bool :=
  let hosttype := (version / 2 ^ 8) &&& 0xFF
  if hosttype = 0 ∨ hosttype = 1 ∨ hosttype = 2 ∨ hosttype = 4 ∨ hosttype = 6 ∨
     hosttype = 11 ∨ hosttype = 14 ∨ hosttype = 13 ∨ hosttype = 15 ∨ hosttype = 18
  then false else true

/-- `zip_has_symlink_attr`: the high 16 bits of the external attributes encode
a UNIX symlink file type, the entry has non-zero uncompressed size, and the
made-by host can produce symlinks. -/
def zip_has_symlink_attr (e : ZIPentry) (extern_attr : Nat) : Bool :=
  let xattr := (extern_attr / 2 ^ 16) &&& 0xFFFF
  zip_version_does_symlinks e.version &&
    decide (0 < e.uncompressed_size) &&
    decide (xattr &&& UNIX_FILETYPE_MASK = UNIX_FILETYPE_SYMLINK)

/-- The resolution state assigned by `zip_load_entry` once the name has been
read: a trailing `/` (checked after FAT backslash conversion) makes the entry
a Directory, otherwise the symlink attribute decides between
`UnresolvedSymlink` and `UnresolvedFile`. -/
def zip_load_entry_resolved (e : ZIPentry) (extern_attr : Nat)
    (nameEndsSlash : Bool) : ZipResolveType :=
  if nameEndsSlash then .directory
  else if zip_has_symlink_attr e extern_attr then .unresolvedSymlink
  else .unresolvedFile

/-- The fixed fields of a local file header (sig `50 4B 03 04`) as read by
`zip_parse_local`, in file order. -/
structure LocalHeader where
  sig : Nat
  version_needed : Nat
  general_bits : Nat
  compression_method : Nat
  dos_mod_time : Nat
  crc : Nat
  compressed_size : Nat
  uncompressed_size : Nat
  fnamelen : Nat
  extralen : Nat
  deriving DecidableEq

/-- Salt length read by `zip_parse_local` for each AES key-strength code
(8, 12 or 16 bytes; the three `if` blocks in the source). -/
def zip_aes_salt_len (key_strength : Nat) : Nat :=
  if key_strength = ZIP_AES_128_BITS then 8
  else if key_strength = ZIP_AES_192_BITS then 12
  else if key_strength = ZIP_AES_256_BITS then 16
  else 0

/-- `zip_parse_local`: validate the local file header against the central
directory record and advance `entry->offset` past the header (and past the
AES salt and password verifier for AES entries).  `salt` and `passver` stand
for the bytes the code reads right after the header of an AES entry.
Checks, in source order: signature; `version_needed` equality; for AES
entries the `!ui16 != entry->compression_method` comparison (a boolean
compared with a u16, modelled exactly); `crc` (mismatch tolerated only when
the local value is 0); `compressed_size` and `uncompressed_size` (mismatch
tolerated when the local value is 0 or 0xFFFFFFFF). -/
def zip_parse_local (e : ZIPentry) (h : LocalHeader) (salt : List Nat)
    (passver : Nat) : Except ErrCode ZIPentry :=
  if h.sig ≠ ZIP_LOCAL_FILE_SIG then .error .corrupt
  else if h.version_needed ≠ e.version_needed then .error .corrupt
  else if ZIP_IS_AES e ∧
      (if h.compression_method = 0 then 1 else 0) ≠ e.compression_method then
    .error .corrupt
  else if h.crc ≠ 0 ∧ h.crc ≠ e.crc then .error .corrupt
  else if h.compressed_size ≠ 0 ∧ h.compressed_size ≠ 0xFFFFFFFF ∧
      h.compressed_size ≠ e.compressed_size then .error .corrupt
  else if h.uncompressed_size ≠ 0 ∧ h.uncompressed_size ≠ 0xFFFFFFFF ∧
      h.uncompressed_size ≠ e.uncompressed_size then .error .corrupt
  else
    let e := { e with offset := e.offset + h.fnamelen + h.extralen + 30 }
    if ZIP_IS_AES e then
      if COMPMETH_NONE ≠ e.compression_method then .error .corrupt
      else
        let n := zip_aes_salt_len e.aes_key_strength
        .ok { e with offset := e.offset + n + 2,
                     aes_salt := salt.take n,
                     aes_pass_verification := passver }
    else .ok e

/-- The branch `zip_read_decrypt` takes after the underlying read: its outer
condition is `zip_entry_is_tradional_crypto`, the inner one `ZIP_IS_AES`. -/
inductive DecryptPath where
  | plain
  | aes
  | classic
  deriving DecidableEq

/-- Branch selection of `zip_read_decrypt`, lifted out so the claims about
which cipher path an entry takes are about the very test the code performs. -/
def zip_read_decrypt_path (e : ZIPentry) : DecryptPath :=
  if zip_entry_is_tradional_crypto e then
    if ZIP_IS_AES e then .aes else .classic
  else .plain

/-- The branch `ZIP_seek` takes: direct reposition for Stored unencrypted
entries, the AES branch, or the rewind-and-scan branch for DEFLATE or
classic-crypto streams. -/
inductive SeekBranch where
  | direct
  | aes
  | scan
  deriving DecidableEq

/-- Branch selection of `ZIP_seek`, following the source's conditions in
order: `!encrypted && compression_method == COMPMETH_NONE`, then
`ZIP_IS_AES(entry)`, else the scan branch. -/
def ZIP_seek_branch (e : ZIPentry) : SeekBranch :=
  if !zip_entry_is_tradional_crypto e && (e.compression_method == COMPMETH_NONE)
  then .direct
  else if ZIP_IS_AES e then .aes
  else .scan

/-- One open file in a ZIP archive (`ZIPfileinfo`).

`arch` with `iopos` models the entry's duplicated `PHYSFS_Io` byte source
(the whole archive frame plus its current position).  `inflOut` is the
abstract output of the raw-DEFLATE decoder on the member's (decrypted)
compressed stream: the code feeds that stream to `inflate` strictly
sequentially from the member start, so the bytes drained after the decoder
has produced `inflate_total_out` bytes are exactly
`inflOut[inflate_total_out ..]`; `inflate_total_out` models
`stream.total_out`.  The 16 KiB pull bookkeeping of the DEFLATE read loop
(`compressed_position`, `stream.avail_in`) is kept as a field but folded into
`inflOut` as far as the produced bytes are concerned, because the decrypted
compressed stream the decoder consumes does not depend on how it is chunked.
The AES context is not modelled (no claim depends on AES keystream bytes). -/
structure ZIPfileinfo where
  entry : ZIPentry
  arch : List Nat
  iopos : Nat
  compressed_position : Nat
  uncompressed_position : Nat
  crypto_keys : CryptoKeys
  initial_crypto_keys : CryptoKeys
  inflate_total_out : Nat
  inflOut : List Nat
  deriving DecidableEq

/-- `zip_read_decrypt` for the Stored read path: read `len` bytes from the
underlying source and, on the classic branch, decrypt them in place while
updating the keys.  (The AES branch is passed through undecoded; the claims
never rely on AES plaintext.) -/
def zip_read_decrypt (f : ZIPfileinfo) (len : Nat) : List Nat × ZIPfileinfo :=
  let buf := (f.arch.drop f.iopos).take len
  let f1 := { f with iopos := f.iopos + buf.length }
  match zip_read_decrypt_path f.entry with
  | .plain => (buf, f1)
  | .aes => (buf, f1)
  | .classic =>
    let r := zip_decrypt_list f1.crypto_keys buf
    (r.1, { f1 with crypto_keys := r.2 })

/-- `ZIP_read`: clamp the request to the bytes remaining before
`uncompressed_size`, return 0 bytes at end of stream, and deliver either
through `zip_read_decrypt` (Stored) or from the DEFLATE decoder.  Returns the
bytes delivered and the updated stream (`uncompressed_position` advances by
the number of bytes delivered). -/
def ZIP_read (f : ZIPfileinfo) (len : Nat) : List Nat × ZIPfileinfo :=
  let avail := f.entry.uncompressed_size - f.uncompressed_position
  let maxread := min len avail
  if maxread = 0 then ([], f)
  else if f.entry.compression_method = COMPMETH_NONE then
    let r := zip_read_decrypt f maxread
    (r.1, { r.2 with
      uncompressed_position := r.2.uncompressed_position + r.1.length })
  else
    let out := (f.inflOut.drop f.inflate_total_out).take maxread
    (out, { f with
      inflate_total_out := f.inflate_total_out + out.length,
      uncompressed_position := f.uncompressed_position + out.length })

/-- The state reset performed by `ZIP_seek` before scanning forward when the
target lies behind the current position: fresh decoder, underlying source
back at the member data start (past the 12-byte crypto header for classic
entries), both positions zeroed, keys restored to `initial_crypto_keys`. -/
def zip_seek_reset (f : ZIPfileinfo) : ZIPfileinfo :=
  { f with
    inflate_total_out := 0,
    iopos := f.entry.offset + (if zip_entry_is_tradional_crypto f.entry then 12 else 0),
    uncompressed_position := 0,
    compressed_position := 0,
    crypto_keys :=
      if zip_entry_is_tradional_crypto f.entry then f.initial_crypto_keys
      else f.crypto_keys }

/-- The forward-discard loop of `ZIP_seek`: read and drop chunks of at most
512 bytes until `uncompressed_position` reaches the target; a short read
aborts the seek (the code returns failure, keeping the error already set). -/
def ZIP_seek_loop (f : ZIPfileinfo) (offset : Nat) : Except ErrCode ZIPfileinfo :=
  if h : f.uncompressed_position < offset then
    let maxread := min 512 (offset - f.uncompressed_position)
    let r := ZIP_read f maxread
    if hr : r.1.length = maxread then ZIP_seek_loop r.2 offset else .error .ioError
  else .ok f
termination_by offset - f.uncompressed_position
decreasing_by
  unfold r maxread at hr
  have hdp : ∀ (g : ZIPfileinfo) (n : Nat),
      (zip_read_decrypt g n).2.uncompressed_position = g.uncompressed_position := by
    intro g n
    unfold zip_read_decrypt
    cases zip_read_decrypt_path g.entry <;> rfl
  have hpos : (ZIP_read f (min 512 (offset - f.uncompressed_position))).2.uncompressed_position
      = f.uncompressed_position
        + (ZIP_read f (min 512 (offset - f.uncompressed_position))).1.length := by
    unfold ZIP_read
    dsimp only
    split
    · simp
    · split
      · dsimp only
        rw [hdp]
      · rfl
  omega

/-- `ZIP_seek`: fail `PastEof` beyond `uncompressed_size`; otherwise take the
direct, AES, or rewind-and-scan branch (the PastEof check happens before any
state is touched, so a failed seek leaves the stream unchanged). -/
def ZIP_seek (f : ZIPfileinfo) (offset : Nat) : Except ErrCode ZIPfileinfo :=
  if offset > f.entry.uncompressed_size then .error .pastEof
  else
    match ZIP_seek_branch f.entry with
    | .direct =>
      .ok { f with iopos := f.entry.offset + offset,
                   uncompressed_position := offset }
    | .aes =>
      .ok { f with iopos := f.entry.offset + offset,
                   uncompressed_position := offset }
    | .scan =>
      let f1 := if offset < f.uncompressed_position then zip_seek_reset f else f
      ZIP_seek_loop f1 offset

/-- The end-of-central-directory signature test `50 4B 05 06` at index `i` of
the scan buffer (the C array accesses `buf[i] .. buf[i+3]`). -/
def zip_eocd_sig_at (buf : List Nat) (i : Nat) : Bool :=
  buf.getD i 0 == 0x50 && buf.getD (i + 1) 0 == 0x4B &&
  buf.getD (i + 2) 0 == 0x05 && buf.getD (i + 3) 0 == 0x06

/-- The inner scan of `zip_find_end_of_central_dir`: `for (i = maxread - 4;
i > 0; i--)` — indices `maxread - 4` down to `1`, index 0 is never tested.
Returns the first hit in that order (the largest matching index). -/
def zip_eocd_scan (buf : List Nat) (maxread : Nat) : Option Nat :=
  (List.range' 1 (maxread - 4)).reverse.find? (fun i => zip_eocd_sig_at buf i)

/-- The backward-reading loop of `zip_find_end_of_central_dir`.  Each
iteration seeks to `filepos` and reads `maxread` bytes (first pass) or
`maxread - 4` bytes followed by the 4 saved `extra` bytes (later passes),
scans the buffer, and steps `filepos` back by `maxread - 4`, clamping at 0.
`fuel` only bounds the recursion; the loop adds at least `maxread - 4 = 252`
to `totalread` whenever it repeats (a second iteration requires
`filelen > 256`), so it runs at most 261 times before the
`totalread < 65557` guard stops it and the fuel of 1000 passed below can
never be exhausted. -/
def zip_find_eocd_loop (file : List Nat) (filelen maxread : Nat)
    (filepos totalread : Nat) (extra : List Nat) (fuel : Nat) :
    Except ErrCode Nat :=
  match fuel with
  | 0 => .error .unsupported
  | fuel + 1 =>
    if totalread < filelen ∧ totalread < 65557 then
      let readlen := if totalread ≠ 0 then maxread - 4 else maxread
      if filepos + readlen ≤ filelen then
        let chunk := (file.drop filepos).take readlen
        let buf := if totalread ≠ 0 then chunk ++ extra.take 4 else chunk
        let totalread1 := totalread + readlen
        let extra1 := buf.take 4
        match zip_eocd_scan buf maxread with
        | some i => .ok (filepos + i)
        | none =>
          let filepos1 := if filepos < maxread - 4 then 0
                          else filepos - (maxread - 4)
          zip_find_eocd_loop file filelen maxread filepos1 totalread1 extra1 fuel
      else .error .ioError
    else .error .unsupported

/-- `zip_find_end_of_central_dir`: scan backwards from the end of the file
for the EOCD signature, reading through a 256-byte buffer with a 4-byte
overlap between chunks; give up (`Unsupported`) once more than 65557 bytes
(or the whole file) have been covered without a hit. -/
def zip_find_end_of_central_dir (file : List Nat) : Except ErrCode Nat :=
  let filelen := file.length
  let start : Nat × Nat :=
    if 256 < filelen then (filelen - 256, 256) else (0, filelen)
  zip_find_eocd_loop file filelen start.2 start.1 0 [0, 0, 0, 0] 1000

/-- The ciphertext of a Stored classic-crypto member: the member data after
the 12-byte crypto header (`entry->offset` points at the crypto header once
the entry is resolved; `compressed_size = 12 + uncompressed_size` for such
members). -/
def storedCT (f : ZIPfileinfo) : List Nat :=
  (f.arch.drop (f.entry.offset + 12)).take f.entry.uncompressed_size

/-- The plaintext byte sequence an open stream delivers: the raw member
bytes for Stored entries (decrypted with the saved initial keys on the
classic path), or the abstract DEFLATE output for compressed entries. -/
def streamContent (f : ZIPfileinfo) : List Nat :=
  if f.entry.compression_method = COMPMETH_NONE then
    if zip_entry_is_tradional_crypto f.entry then
      (zip_decrypt_list f.initial_crypto_keys (storedCT f)).1
    else (f.arch.drop f.entry.offset).take f.entry.uncompressed_size
  else f.inflOut

/-- Coherence of an open stream state, as established by `ZIP_openRead` and
preserved by every read and seek: the position is within bounds; for Stored
members the underlying source sits exactly `uncompressed_position` bytes
into the member data (after the 12-byte crypto header on the classic path,
where additionally the current keys are the initial keys advanced over the
already-decrypted prefix) and the archive really contains the member; for
DEFLATE members the decoder has produced exactly `uncompressed_position`
bytes of its `uncompressed_size`-byte output. -/
def Coherent (f : ZIPfileinfo) : Prop :=
  f.uncompressed_position ≤ f.entry.uncompressed_size ∧
  (f.entry.compression_method = COMPMETH_NONE ∧
      zip_entry_is_tradional_crypto f.entry = true →
    f.iopos = f.entry.offset + 12 + f.uncompressed_position ∧
    f.entry.offset + 12 + f.entry.uncompressed_size ≤ f.arch.length ∧
    f.crypto_keys = (zip_decrypt_list f.initial_crypto_keys
      ((storedCT f).take f.uncompressed_position)).2) ∧
  (f.entry.compression_method = COMPMETH_NONE ∧
      zip_entry_is_tradional_crypto f.entry = false →
    f.iopos = f.entry.offset + f.uncompressed_position ∧
    f.entry.offset + f.entry.uncompressed_size ≤ f.arch.length) ∧
  (f.entry.compression_method ≠ COMPMETH_NONE →
    f.inflate_total_out = f.uncompressed_position ∧
    f.inflOut.length = f.entry.uncompressed_size)

/-- `zip_find_entry` over a flat entry list: the first entry whose name
compares equal under the archive's case-insensitive comparison, which is
passed in as `nameEq` (`__PHYSFS_utf8stricmp` lives outside this file).  The
MRU bucket reordering the C code performs on a hit changes bucket order but
never which entry a name resolves to, so it is not modelled. -/
def zip_find_entry (nameEq : Name → Name → Bool) (entries : List ZIPentry)
    (nm : Name) : Option ZIPentry :=
  entries.find? (fun e => nameEq e.name nm)

/-- Field overwrite performed by `zip_load_entries` when a freshly parsed
record collides with a zero-`last_mod_time` placeholder: exactly `offset`,
`version`, `version_needed`, `compression_method`, `crc`, `compressed_size`,
`uncompressed_size` and `last_mod_time` are copied from the new record. -/
def zip_promote_placeholder (find e : ZIPentry) : ZIPentry :=
  { find with
    offset := e.offset,
    version := e.version,
    version_needed := e.version_needed,
    compression_method := e.compression_method,
    crc := e.crc,
    compressed_size := e.compressed_size,
    uncompressed_size := e.uncompressed_size,
    last_mod_time := e.last_mod_time }

/-- In-place update of the entry a name resolves to (the C code mutates the
found node through its pointer; names are unique in the hash, so updating
every name-equal entry is the same thing). -/
def zip_replace_entry (nameEq : Name → Name → Bool) (entries : List ZIPentry)
    (nm : Name) (e1 : ZIPentry) : List ZIPentry :=
  entries.map (fun x => if nameEq x.name nm then e1 else x)

/-- `strrchr(name, '/')`: the name up to (excluding) its last slash, `none`
when there is no slash (the parent is the archive root). -/
def zip_parent_name (nm : Name) : Option Name :=
  match nm.reverse.dropWhile (fun c => c ≠ '/') with
  | [] => none
  | _ :: restRev => some restRev.reverse

/-- The synthesized ancestor directory `zip_hash_ancestors` allocates: a
zeroed entry (in particular `last_mod_time = 0`, which is what later lets
`zip_load_entries` recognise it as a placeholder) marked `Directory`. -/
def zip_ancestor_placeholder (nm : Name) : ZIPentry :=
  { name := nm, resolved := .directory, offset := 0, version := 0,
    version_needed := 0, general_bits := 0, compression_method := 0, crc := 0,
    compressed_size := 0, uncompressed_size := 0, last_mod_time := 0,
    dos_mod_time := 0, symlink := none, aes_key_strength := 0, aes_salt := [],
    aes_pass_verification := 0, aes_compression := 0 }

/-- `zip_hash_ancestors` (with the recursive `zip_hash_entry` call on the
synthesized directory inlined): make sure every ancestor directory of `nm`
exists, synthesizing placeholders; a non-directory entry occupying an
ancestor name is `Corrupt`. -/
def zip_hash_ancestors (nameEq : Name → Name → Bool) (entries : List ZIPentry)
    (nm : Name) : Except ErrCode (List ZIPentry) :=
  match hp : zip_parent_name nm with
  | none => .ok entries
  | some parent =>
    match zip_find_entry nameEq entries parent with
    | some p => if p.resolved ≠ .directory then .error .corrupt else .ok entries
    | none =>
      match zip_hash_ancestors nameEq entries parent with
      | .error c => .error c
      | .ok entries1 => .ok (entries1 ++ [zip_ancestor_placeholder parent])
termination_by nm.length
decreasing_by
  unfold zip_parent_name at hp
  rcases hdw : nm.reverse.dropWhile (fun c => c ≠ '/') with _ | ⟨c, restRev⟩
  · rw [hdw] at hp; exact absurd hp (by simp)
  · rw [hdw] at hp
    have hlen : (nm.reverse.dropWhile (fun c => c ≠ '/')).length ≤ nm.reverse.length :=
      (List.dropWhile_sublist (l := nm.reverse) (fun c => c ≠ '/')).length_le
    rw [hdw] at hlen
    simp only [Option.some.injEq] at hp
    subst hp
    simp only [List.length_cons, List.length_reverse] at hlen ⊢
    omega

/-- `zip_hash_entry`: hash the ancestors of `entry->name`, then insert the
entry itself (bucket order is immaterial to lookups, see
`zip_find_entry`). -/
def zip_hash_entry (nameEq : Name → Name → Bool) (entries : List ZIPentry)
    (e : ZIPentry) : Except ErrCode (List ZIPentry) :=
  match zip_hash_ancestors nameEq entries e.name with
  | .error c => .error c
  | .ok entries1 => .ok (entries1 ++ [e])

/-- The per-record loop of `zip_load_entries`: load each central-directory
record, detect duplicates through the case-insensitive lookup, fail
`Corrupt` on a duplicate whose existing entry has non-zero `last_mod_time`,
promote zero-`last_mod_time` placeholders in place and continue, and hash
genuinely new entries.  (The `has_crypto` accumulation of the C loop lives
in `ZIPinfoM.has_crypto` of the open-read model.) -/
def zip_load_entries_loop (nameEq : Name → Name → Bool)
    (entries : List ZIPentry) (records : List ZIPentry) :
    Except ErrCode (List ZIPentry) :=
  match records with
  | [] => .ok entries
  | e :: rest =>
    match zip_find_entry nameEq entries e.name with
    | some find =>
      if find.last_mod_time ≠ 0 then .error .corrupt
      else zip_load_entries_loop nameEq
        (zip_replace_entry nameEq entries e.name (zip_promote_placeholder find e))
        rest
    | none =>
      match zip_hash_entry nameEq entries e with
      | .error c => .error c
      | .ok entries1 => zip_load_entries_loop nameEq entries1 rest

/-- Environment for the lazy resolver: the case-insensitive name comparison
(`__PHYSFS_utf8stricmp`), the path normalisation a symlink target undergoes
(`zip_convert_dos_path` then `zip_expand_symlink_path`), and the link target
bytes `zip_resolve_symlink` reads (Stored) or inflates (DEFLATE) from the
member data of a symlink entry.  All three live outside the claims under
scrutiny, so they are abstract parameters. -/
structure ResolveEnv where
  nameEq : Name → Name → Bool
  expand : Name → Name
  linkData : Name → Name

/-- Update the resolution state of the entry `nm` resolves to (the C code
mutates the found node; names are unique in the hash). -/
def zip_set_resolved (nameEq : Name → Name → Bool) (entries : List ZIPentry)
    (nm : Name) (st : ZipResolveType) : List ZIPentry :=
  entries.map (fun e => if nameEq e.name nm then { e with resolved := st } else e)

/-- Update the `symlink` pointer of the entry `nm` resolves to. -/
def zip_set_symlink (nameEq : Name → Name → Bool) (entries : List ZIPentry)
    (nm : Name) (tgt : Option Name) : List ZIPentry :=
  entries.map (fun e => if nameEq e.name nm then { e with symlink := tgt } else e)

/-- `zip_resolve`, with `zip_resolve_symlink` and `zip_follow_symlink`
inlined (the three functions form one recursive loop in the source).
Dispatch on the entry's current resolution state: directories and resolved
entries succeed, broken entries fail `Corrupt`, an entry already in
`Resolving` fails `SymlinkLoop`.  Unresolved entries are marked `Resolving`;
a file is then marked `Resolved` (`zip_parse_local` is modelled as
succeeding — local-header corruption is orthogonal to the resolution
claims), while a symlink reads its target path, looks it up, recursively
resolves it, and adopts the target's eventual non-symlink entry, marking
itself `BrokenSymlink` and propagating the error of any failure underneath.
`fuel` bounds the recursion depth; since every recursive call happens with
one more entry marked `Resolving` and re-entering a `Resolving` entry stops
immediately, any fuel larger than the number of entries behaves like the C
recursion. -/
def zip_resolve (env : ResolveEnv) (fuel : Nat) (entries : List ZIPentry)
    (nm : Name) : List ZIPentry × Except ErrCode Unit :=
  match fuel with
  | 0 => (entries, .error .corrupt)
  | fuel + 1 =>
    match zip_find_entry env.nameEq entries nm with
    | none => (entries, .error .notFound)
    | some e =>
      match e.resolved with
      | .directory => (entries, .ok ())
      | .resolved => (entries, .ok ())
      | .brokenFile => (entries, .error .corrupt)
      | .brokenSymlink => (entries, .error .corrupt)
      | .resolving => (entries, .error .symlinkLoop)
      | .unresolvedFile => (zip_set_resolved env.nameEq entries nm .resolved, .ok ())
      | .unresolvedSymlink =>
        let st1 := zip_set_resolved env.nameEq entries nm .resolving
        let path := env.expand (env.linkData nm)
        match zip_find_entry env.nameEq st1 path with
        | none => (zip_set_resolved env.nameEq st1 nm .brokenSymlink, .error .notFound)
        | some t =>
          match zip_resolve env fuel st1 t.name with
          | (st2, .error c) =>
            (zip_set_resolved env.nameEq st2 nm .brokenSymlink, .error c)
          | (st2, .ok ()) =>
            match zip_find_entry env.nameEq st2 t.name with
            | none => (zip_set_resolved env.nameEq st2 nm .brokenSymlink, .error .notFound)
            | some t2 =>
              let final := t2.symlink.getD t2.name
              ((zip_set_resolved env.nameEq
                  (zip_set_symlink env.nameEq st2 nm (some final)) nm .resolved),
               .ok ())

/-- Split a lookup path at its last `'$'` (`strrchr(filename, '$')`):
the part before it becomes the lookup key, the part after it the password. -/
def zip_split_password (filename : Name) : Option (Name × Name) :=
  match filename.reverse.dropWhile (fun c => c ≠ '$') with
  | [] => none
  | _ :: restRev =>
    some (restRev.reverse, (filename.reverse.takeWhile (fun c => c ≠ '$')).reverse)

/-- The archive-level state `ZIP_openRead` works on: the loaded entries and
the `has_crypto` flag set by `zip_load_entries` when any entry uses
traditional crypto. -/
structure ZIPinfoM where
  entries : List ZIPentry
  has_crypto : Bool

/-- The observable result of a successful `ZIP_openRead`: which entry the
stream reads (after symlink redirection) and, for classic-crypto entries,
the cipher keys prepared from the crypto header. -/
structure OpenedStream where
  entryName : Name
  crypto_keys : Option CryptoKeys
  deriving DecidableEq

/-- `ZIP_openRead`: look the path up, falling back to the `$password` suffix
convention when the lookup misses and the archive has crypto entries;
resolve the entry (`zip_get_io`); then run the crypto checks: a password
supplied for an entry that is not classic-encrypted is `BadPassword`, AES
entries just arm the AES context, and classic-crypto entries require a
password (else `BadPassword`) and a crypto header that passes
`zip_prep_crypto_keys`.  `header nm` stands for the 12 bytes
`io->read(io, crypto_header, 12)` returns at the data offset of entry `nm`.
The crypto checks test the entry as looked up (`entry`), while the stream
itself reads from the symlink target (`finfo->entry`), exactly as in the
source. -/
def ZIP_openRead (env : ResolveEnv) (header : Name → List Nat) (fuel : Nat)
    (info : ZIPinfoM) (filename : Name) : Except ErrCode OpenedStream :=
  let direct := zip_find_entry env.nameEq info.entries filename
  let lookup : Option (ZIPentry × Option Name) :=
    match direct with
    | some e => some (e, none)
    | none =>
      if info.has_crypto then
        match zip_split_password filename with
        | some (key, pw) =>
          match zip_find_entry env.nameEq info.entries key with
          | some e => some (e, some pw)
          | none => none
        | none => none
      else none
  match lookup with
  | none => .error .notFound
  | some (e, password) =>
    match zip_resolve env fuel info.entries e.name with
    | (_, .error c) => .error c
    | (st2, .ok ()) =>
      let finalName :=
        match zip_find_entry env.nameEq st2 e.name with
        | some e2 => e2.symlink.getD e2.name
        | none => e.name
      if !zip_entry_is_tradional_crypto e then
        if password.isSome then .error .badPassword
        else .ok ⟨finalName, none⟩
      else if ZIP_IS_AES e then .ok ⟨finalName, none⟩
      else
        match password with
        | none => .error .badPassword
        | some pw =>
          if (header e.name).length ≠ 12 then .error .ioError
          else
            match zip_prep_crypto_keys e (header e.name) (pw.map Char.toNat) with
            | .error c => .error c
            | .ok ks => .ok ⟨finalName, some ks⟩

/-- A `ZIPentry` with every numeric field zero, used as the base record for
concrete instantiations. -/
def baseEntry : ZIPentry :=
  { name := [], resolved := .unresolvedFile, offset := 0, version := 0,
    version_needed := 0, general_bits := 0, compression_method := 0, crc := 0,
    compressed_size := 0, uncompressed_size := 0, last_mod_time := 0,
    dos_mod_time := 0, symlink := none, aes_key_strength := 0, aes_salt := [],
    aes_pass_verification := 0, aes_compression := 0 }

/-- A concrete open stream over a 3-byte Stored unencrypted member, used to
instantiate the stream theorems. -/
def wStreamEntry : ZIPentry :=
  { baseEntry with
    resolved := .resolved
    uncompressed_size := 3
    compressed_size := 3 }

/-- The stream state itself (see `wStreamEntry`). -/
def wStream : ZIPfileinfo :=
  { entry := wStreamEntry, arch := [10, 20, 30], iopos := 0,
    compressed_position := 0, uncompressed_position := 0,
    crypto_keys := ⟨0, 0, 0⟩, initial_crypto_keys := ⟨0, 0, 0⟩,
    inflate_total_out := 0, inflOut := [] }

/-- A concrete classic-crypto entry with general-purpose bit 3 set and
`dos_mod_time` chosen so that byte 1 and byte 3 of the 32-bit field differ
(64512 = 252 * 256). -/
def c2Entry : ZIPentry :=
  { baseEntry with general_bits := 8, dos_mod_time := 64512 }

/-- A concrete central-directory entry for the local-header checks. -/
def c3Entry : ZIPentry :=
  { baseEntry with
    version_needed := 20
    crc := 5
    compressed_size := 7
    uncompressed_size := 9 }

/-- A local header matching `c3Entry` everywhere except that its `crc` field
holds 0xFFFFFFFF. -/
def c3Header : LocalHeader :=
  { sig := ZIP_LOCAL_FILE_SIG, version_needed := 20, general_bits := 0,
    compression_method := 0, dos_mod_time := 0, crc := 0xFFFFFFFF,
    compressed_size := 7, uncompressed_size := 9, fnamelen := 1, extralen := 2 }

/-- A central-directory record made on a unix host (host code 3) whose
external attributes encode a symlink but whose `uncompressed_size` is 0. -/
def c4Entry : ZIPentry :=
  { baseEntry with version := 0x0300 }

/-- The 22-byte end-of-central-directory record of an empty ZIP archive: the
EOCD signature at file position 0, all counts, sizes, offsets and the
comment length zero. -/
def emptyZipEOCD : List Nat :=
  [0x50, 0x4B, 0x05, 0x06] ++ List.replicate 18 0

/-- Byte-for-byte name comparison, a concrete instance of the abstract
case-insensitive comparator for witnesses. -/
def exactNameEq : Name → Name → Bool := fun a b => a == b

/-- A zero-`last_mod_time` placeholder entry named `a`, as synthesized by
`zip_hash_ancestors`. -/
def c7Existing : ZIPentry :=
  { baseEntry with name := ['a'] }

/-- A freshly parsed central-directory record that collides with
`c7Existing`. -/
def c7Record : ZIPentry :=
  { baseEntry with name := ['a'], crc := 7 }

/-- A symlink entry as loaded from the central directory: resolution state
`UnresolvedSymlink`. -/
def symEntry (nm : Name) : ZIPentry :=
  { baseEntry with name := nm, resolved := .unresolvedSymlink }

/-- The names form a link chain ending at `z`: each entry's (normalised)
link target is the next name in the list, and the last one points at `z`.
With `z` equal to the first name this states that the entries form a
symlink cycle. -/
def CycleChain (expand linkData : Name → Name) (z : Name) : List Name → Prop
  | [] => True
  | [m] => expand (linkData m) = z
  | m :: m2 :: rest => expand (linkData m) = m2 ∧
      CycleChain expand linkData z (m2 :: rest)

/-- Link-target data of a concrete two-entry symlink cycle
`a -> b -> a`. -/
def cycLink : Name → Name := fun nm => if nm == ['a'] then ['b'] else ['a']

/-- The two-entry archive of the concrete cycle. -/
def cycSt : List ZIPentry := [symEntry ['a'], symEntry ['b']]

/-- An already-resolved entry with general-purpose bit 0 set and the AES
key-strength code for 192-bit keys: `zip_entry_is_tradional_crypto` holds
and so does `ZIP_IS_AES`. -/
def c10AesEntry : ZIPentry :=
  { baseEntry with
    name := ['b']
    resolved := .resolved
    general_bits := 1
    aes_key_strength := 2 }

/-- An already-resolved unencrypted entry (general-purpose bits all
clear). -/
def c10PlainEntry : ZIPentry :=
  { baseEntry with
    name := ['a']
    resolved := .resolved }

/-- An already-resolved classic-PKWARE-encrypted entry: bit 0 set, no AES
key strength. -/
def c10ClassicEntry : ZIPentry :=
  { baseEntry with
    name := ['b']
    resolved := .resolved
    general_bits := 1 }

/-! Helper lemmas about the classic cipher stream. -/

theorem zip_decrypt_list_length (k : CryptoKeys) (l : List Nat) :
    (zip_decrypt_list k l).1.length = l.length := by
  induction l generalizing k with
  | nil => rfl
  | cons c rest ih => simp [zip_decrypt_list, ih]

theorem zip_decrypt_list_append (k : CryptoKeys) (a b : List Nat) :
    zip_decrypt_list k (a ++ b)
      = ((zip_decrypt_list k a).1 ++ (zip_decrypt_list (zip_decrypt_list k a).2 b).1,
         (zip_decrypt_list (zip_decrypt_list k a).2 b).2) := by
  induction a generalizing k with
  | nil => simp [zip_decrypt_list]
  | cons c rest ih => simp [zip_decrypt_list, ih]

theorem zip_decrypt_list_keys_take_add (k : CryptoKeys) (ct : List Nat)
    (pos m : Nat) :
    (zip_decrypt_list (zip_decrypt_list k (ct.take pos)).2
        ((ct.drop pos).take m)).2
      = (zip_decrypt_list k (ct.take (pos + m))).2 := by
  rw [List.take_add, zip_decrypt_list_append]

theorem zip_decrypt_list_take (k : CryptoKeys) (l : List Nat) (m : Nat) :
    (zip_decrypt_list k (l.take m)).1 = (zip_decrypt_list k l).1.take m := by
  induction l generalizing k m with
  | nil => simp [zip_decrypt_list]
  | cons c rest ih =>
    cases m with
    | zero => rfl
    | succ m => simp [zip_decrypt_list, ih]

theorem zip_decrypt_list_drop (k : CryptoKeys) (l : List Nat) (pos : Nat) :
    (zip_decrypt_list (zip_decrypt_list k (l.take pos)).2 (l.drop pos)).1
      = (zip_decrypt_list k l).1.drop pos := by
  induction l generalizing k pos with
  | nil => simp [zip_decrypt_list]
  | cons c rest ih =>
    cases pos with
    | zero => rfl
    | succ pos => simp [zip_decrypt_list, ih]

theorem zip_decrypt_list_slice (k : CryptoKeys) (ct : List Nat) (pos m : Nat) :
    (zip_decrypt_list (zip_decrypt_list k (ct.take pos)).2
        ((ct.drop pos).take m)).1
      = ((zip_decrypt_list k ct).1.drop pos).take m := by
  rw [zip_decrypt_list_take, zip_decrypt_list_drop]

/-- Characterisation of one `ZIP_read` on a coherent non-AES stream: it
returns the next `min n avail` bytes of the stream plaintext, advances the
position by that amount, preserves coherence and leaves the immutable parts
of the stream untouched. -/
theorem ZIP_read_spec (f : ZIPfileinfo) (n : Nat) (hc : Coherent f)
    (haes : ZIP_IS_AES f.entry = false) :
    (ZIP_read f n).1 =
      ((streamContent f).drop f.uncompressed_position).take
        (min n (f.entry.uncompressed_size - f.uncompressed_position)) ∧
    (ZIP_read f n).2.uncompressed_position =
      f.uncompressed_position + min n (f.entry.uncompressed_size - f.uncompressed_position) ∧
    Coherent (ZIP_read f n).2 ∧
    (ZIP_read f n).2.entry = f.entry ∧
    (ZIP_read f n).2.arch = f.arch ∧
    (ZIP_read f n).2.initial_crypto_keys = f.initial_crypto_keys ∧
    (ZIP_read f n).2.inflOut = f.inflOut := by
  obtain ⟨hb, hcl, hnc, hdf⟩ := hc
  by_cases h0 : min n (f.entry.uncompressed_size - f.uncompressed_position) = 0
  · have hEq : ZIP_read f n = ([], f) := by
      unfold ZIP_read
      rw [if_pos h0]
    rw [hEq]
    exact ⟨by simp [h0], by simp [h0], ⟨hb, hcl, hnc, hdf⟩, rfl, rfl, rfl, rfl⟩
  · by_cases hmeth : f.entry.compression_method = COMPMETH_NONE
    · cases hcr : zip_entry_is_tradional_crypto f.entry with
      | true =>
        obtain ⟨hio, hal, hkeys⟩ := hcl ⟨hmeth, hcr⟩
        have hpath : zip_read_decrypt_path f.entry = .classic := by
          unfold zip_read_decrypt_path
          rw [hcr, haes]
          rfl
        have hEq : ZIP_read f n =
            ((zip_decrypt_list f.crypto_keys ((f.arch.drop f.iopos).take
                (min n (f.entry.uncompressed_size - f.uncompressed_position)))).1,
             { f with
               iopos := f.iopos + ((f.arch.drop f.iopos).take
                 (min n (f.entry.uncompressed_size - f.uncompressed_position))).length,
               crypto_keys := (zip_decrypt_list f.crypto_keys ((f.arch.drop f.iopos).take
                 (min n (f.entry.uncompressed_size - f.uncompressed_position)))).2,
               uncompressed_position := f.uncompressed_position +
                 (zip_decrypt_list f.crypto_keys ((f.arch.drop f.iopos).take
                   (min n (f.entry.uncompressed_size - f.uncompressed_position)))).1.length }) := by
          unfold ZIP_read zip_read_decrypt
          rw [if_neg h0, if_pos hmeth, hpath]
        have hbuf : (f.arch.drop f.iopos).take
            (min n (f.entry.uncompressed_size - f.uncompressed_position)) =
            ((storedCT f).drop f.uncompressed_position).take
              (min n (f.entry.uncompressed_size - f.uncompressed_position)) := by
          unfold storedCT
          rw [hio, List.drop_take, List.take_take, List.drop_drop]
          rw [show min (min n (f.entry.uncompressed_size - f.uncompressed_position))
                (f.entry.uncompressed_size - f.uncompressed_position)
              = min n (f.entry.uncompressed_size - f.uncompressed_position) from by omega]
        have hbuflen : ((f.arch.drop f.iopos).take
            (min n (f.entry.uncompressed_size - f.uncompressed_position))).length
            = min n (f.entry.uncompressed_size - f.uncompressed_position) := by
          rw [List.length_take, List.length_drop, hio]
          omega
        have hCont : streamContent f =
            (zip_decrypt_list f.initial_crypto_keys (storedCT f)).1 := by
          unfold streamContent
          rw [if_pos hmeth, if_pos hcr]
        have hbytes : (zip_decrypt_list f.crypto_keys
            ((f.arch.drop f.iopos).take
              (min n (f.entry.uncompressed_size - f.uncompressed_position)))).1
            = ((streamContent f).drop f.uncompressed_position).take
              (min n (f.entry.uncompressed_size - f.uncompressed_position)) := by
          rw [hbuf, hkeys, zip_decrypt_list_slice, hCont]
        have hlen2 : (zip_decrypt_list f.crypto_keys
            ((f.arch.drop f.iopos).take
              (min n (f.entry.uncompressed_size - f.uncompressed_position)))).1.length
            = min n (f.entry.uncompressed_size - f.uncompressed_position) := by
          rw [zip_decrypt_list_length, hbuflen]
        have hkeys2 : (zip_decrypt_list f.crypto_keys
            ((f.arch.drop f.iopos).take
              (min n (f.entry.uncompressed_size - f.uncompressed_position)))).2
            = (zip_decrypt_list f.initial_crypto_keys
                ((storedCT f).take (f.uncompressed_position +
                  min n (f.entry.uncompressed_size - f.uncompressed_position)))).2 := by
          rw [hbuf, hkeys, zip_decrypt_list_keys_take_add]
        rw [hEq]
        dsimp only
        refine ⟨hbytes, by rw [hlen2], ?_, rfl, rfl, rfl, rfl⟩
        refine ⟨?_, fun _ => ?_, fun hx => ?_, fun hx => ?_⟩
        · dsimp only
          rw [hlen2]
          omega
        · dsimp only
          refine ⟨?_, hal, ?_⟩
          · rw [hbuflen, hlen2, hio]
            omega
          · rw [hkeys2, hlen2]
            rfl
        · exact absurd hx.2 (by simp [zip_entry_is_tradional_crypto] at hcr ⊢; exact hcr)
        · exact absurd hmeth hx
      | false =>
        obtain ⟨hio, hal⟩ := hnc ⟨hmeth, hcr⟩
        have hpath : zip_read_decrypt_path f.entry = .plain := by
          unfold zip_read_decrypt_path
          rw [hcr]
          rfl
        have hEq : ZIP_read f n =
            (((f.arch.drop f.iopos).take
                (min n (f.entry.uncompressed_size - f.uncompressed_position))),
             { f with
               iopos := f.iopos + ((f.arch.drop f.iopos).take
                 (min n (f.entry.uncompressed_size - f.uncompressed_position))).length,
               uncompressed_position := f.uncompressed_position +
                 ((f.arch.drop f.iopos).take
                   (min n (f.entry.uncompressed_size - f.uncompressed_position))).length }) := by
          unfold ZIP_read zip_read_decrypt
          rw [if_neg h0, if_pos hmeth, hpath]
        have hCont : streamContent f =
            (f.arch.drop f.entry.offset).take f.entry.uncompressed_size := by
          unfold streamContent
          rw [if_pos hmeth, if_neg (by rw [hcr]; exact Bool.false_ne_true)]
        have hbuf : (f.arch.drop f.iopos).take
            (min n (f.entry.uncompressed_size - f.uncompressed_position)) =
            ((streamContent f).drop f.uncompressed_position).take
              (min n (f.entry.uncompressed_size - f.uncompressed_position)) := by
          rw [hCont, hio, List.drop_take, List.take_take, List.drop_drop]
          rw [show min (min n (f.entry.uncompressed_size - f.uncompressed_position))
                (f.entry.uncompressed_size - f.uncompressed_position)
              = min n (f.entry.uncompressed_size - f.uncompressed_position) from by omega]
        have hbuflen : ((f.arch.drop f.iopos).take
            (min n (f.entry.uncompressed_size - f.uncompressed_position))).length
            = min n (f.entry.uncompressed_size - f.uncompressed_position) := by
          rw [List.length_take, List.length_drop, hio]
          omega
        rw [hEq]
        dsimp only
        refine ⟨hbuf, by rw [hbuflen], ?_, rfl, rfl, rfl, rfl⟩
        refine ⟨?_, fun hx => ?_, fun _ => ?_, fun hx => ?_⟩
        · dsimp only
          rw [hbuflen]
          omega
        · exact absurd hx.2 (by rw [hcr]; exact Bool.false_ne_true)
        · dsimp only
          refine ⟨?_, hal⟩
          rw [hbuflen, hio]
          omega
        · exact absurd hmeth hx
    · obtain ⟨ht, hl⟩ := hdf hmeth
      have hEq : ZIP_read f n =
          (((f.inflOut.drop f.inflate_total_out).take
              (min n (f.entry.uncompressed_size - f.uncompressed_position))),
           { f with
             inflate_total_out := f.inflate_total_out +
               ((f.inflOut.drop f.inflate_total_out).take
                 (min n (f.entry.uncompressed_size - f.uncompressed_position))).length,
             uncompressed_position := f.uncompressed_position +
               ((f.inflOut.drop f.inflate_total_out).take
                 (min n (f.entry.uncompressed_size - f.uncompressed_position))).length }) := by
        unfold ZIP_read
        rw [if_neg h0, if_neg hmeth]
      have hCont : streamContent f = f.inflOut := by
        unfold streamContent
        rw [if_neg hmeth]
      have houtlen : ((f.inflOut.drop f.inflate_total_out).take
          (min n (f.entry.uncompressed_size - f.uncompressed_position))).length
          = min n (f.entry.uncompressed_size - f.uncompressed_position) := by
        rw [List.length_take, List.length_drop, hl, ht]
        omega
      rw [hEq]
      dsimp only
      refine ⟨by rw [hCont, ht], by rw [houtlen], ?_, rfl, rfl, rfl, rfl⟩
      refine ⟨?_, fun hx => ?_, fun hx => ?_, fun _ => ?_⟩
      · dsimp only
        rw [houtlen]
        omega
      · exact absurd hx.1 hmeth
      · exact absurd hx.1 hmeth
      · dsimp only
        refine ⟨?_, hl⟩
        rw [houtlen, ht]

/-- The stream plaintext only depends on the immutable parts of the stream
state. -/
theorem streamContent_congr (f g : ZIPfileinfo) (he : g.entry = f.entry)
    (ha : g.arch = f.arch) (hk : g.initial_crypto_keys = f.initial_crypto_keys)
    (hi : g.inflOut = f.inflOut) : streamContent g = streamContent f := by
  unfold streamContent storedCT
  rw [he, ha, hk, hi]

/-- On a coherent stream the plaintext has exactly `uncompressed_size`
bytes. -/
theorem streamContent_length (f : ZIPfileinfo) (hc : Coherent f) :
    (streamContent f).length = f.entry.uncompressed_size := by
  obtain ⟨hb, hcl, hnc, hdf⟩ := hc
  unfold streamContent
  by_cases hmeth : f.entry.compression_method = COMPMETH_NONE
  · rw [if_pos hmeth]
    cases hcr : zip_entry_is_tradional_crypto f.entry with
    | true =>
      obtain ⟨hio, hal, hkeys⟩ := hcl ⟨hmeth, hcr⟩
      rw [if_pos rfl]
      rw [zip_decrypt_list_length]
      unfold storedCT
      rw [List.length_take, List.length_drop]
      omega
    | false =>
      obtain ⟨hio, hal⟩ := hnc ⟨hmeth, hcr⟩
      rw [if_neg Bool.false_ne_true]
      rw [List.length_take, List.length_drop]
      omega
  · rw [if_neg hmeth]
    exact (hdf hmeth).2

/-- The forward-discard loop of `ZIP_seek` lands exactly on the target
position when the scan starts at or before it, preserving coherence and the
immutable stream parts. -/
theorem ZIP_seek_loop_spec (f : ZIPfileinfo) (offset : Nat) (hc : Coherent f)
    (haes : ZIP_IS_AES f.entry = false) (h1 : f.uncompressed_position ≤ offset)
    (h2 : offset ≤ f.entry.uncompressed_size) :
    ∃ f1, ZIP_seek_loop f offset = .ok f1 ∧ Coherent f1 ∧
      f1.uncompressed_position = offset ∧ f1.entry = f.entry ∧
      f1.arch = f.arch ∧ f1.initial_crypto_keys = f.initial_crypto_keys ∧
      f1.inflOut = f.inflOut := by
  rw [ZIP_seek_loop]
  by_cases h : f.uncompressed_position < offset
  · rw [dif_pos h]
    obtain ⟨hby, hpos, hcoh, he, ha, hk, hio⟩ :=
      ZIP_read_spec f (min 512 (offset - f.uncompressed_position)) hc haes
    have hclen := streamContent_length f hc
    have hlen : (ZIP_read f (min 512 (offset - f.uncompressed_position))).1.length
        = min 512 (offset - f.uncompressed_position) := by
      rw [hby, List.length_take, List.length_drop, hclen]
      omega
    dsimp only
    rw [dif_pos hlen]
    have ih := ZIP_seek_loop_spec
      (ZIP_read f (min 512 (offset - f.uncompressed_position))).2 offset hcoh
      (by rw [he]; exact haes)
      (by rw [hpos]; omega)
      (by rw [he]; exact h2)
    obtain ⟨f1, hloop, hcoh1, hp1, he1, ha1, hk1, hi1⟩ := ih
    exact ⟨f1, hloop, hcoh1, hp1, he1.trans he, ha1.trans ha, hk1.trans hk,
           hi1.trans hio⟩
  · rw [dif_neg h]
    exact ⟨f, rfl, hc, by omega, rfl, rfl, rfl, rfl⟩
termination_by offset - f.uncompressed_position
decreasing_by
  rw [hpos]
  omega

/-- The state reset of `ZIP_seek`'s scan branch restores a coherent stream
positioned at 0. -/
theorem zip_seek_reset_coherent (f : ZIPfileinfo) (hc : Coherent f) :
    Coherent (zip_seek_reset f) := by
  obtain ⟨hb, hcl, hnc, hdf⟩ := hc
  unfold zip_seek_reset
  refine ⟨?_, fun hx => ?_, fun hx => ?_, fun hx => ?_⟩
  · dsimp only
    omega
  · dsimp only at hx ⊢
    refine ⟨?_, (hcl hx).2.1, ?_⟩
    · rw [if_pos hx.2]
    · rw [if_pos hx.2]
      rfl
  · dsimp only at hx ⊢
    refine ⟨?_, (hnc hx).2⟩
    rw [if_neg (by rw [hx.2]; exact Bool.false_ne_true)]
  · dsimp only at hx ⊢
    exact ⟨rfl, (hdf hx).2⟩

/-- Characterisation of `ZIP_seek` on a coherent non-AES stream: any target
at or before `uncompressed_size` succeeds and lands the stream exactly at
the target, preserving coherence and the immutable parts. -/
theorem ZIP_seek_spec (f : ZIPfileinfo) (offset : Nat) (hc : Coherent f)
    (haes : ZIP_IS_AES f.entry = false) (h2 : offset ≤ f.entry.uncompressed_size) :
    ∃ f1, ZIP_seek f offset = .ok f1 ∧ Coherent f1 ∧
      f1.uncompressed_position = offset ∧ f1.entry = f.entry ∧
      f1.arch = f.arch ∧ f1.initial_crypto_keys = f.initial_crypto_keys ∧
      f1.inflOut = f.inflOut := by
  unfold ZIP_seek
  rw [if_neg (by omega : ¬ offset > f.entry.uncompressed_size)]
  cases hbr : ZIP_seek_branch f.entry with
  | direct =>
    have hcond : zip_entry_is_tradional_crypto f.entry = false ∧
        f.entry.compression_method = COMPMETH_NONE := by
      unfold ZIP_seek_branch at hbr
      cases hq : (!zip_entry_is_tradional_crypto f.entry &&
          (f.entry.compression_method == COMPMETH_NONE)) with
      | true =>
        have hq2 := (Bool.and_eq_true _ _).mp hq
        exact ⟨by simpa using hq2.1, by simpa using hq2.2⟩
      | false =>
        rw [hq, if_neg Bool.false_ne_true] at hbr
        split at hbr <;> simp at hbr
    obtain ⟨hcr, hmeth⟩ := hcond
    obtain ⟨hb, hcl, hnc, hdf⟩ := hc
    obtain ⟨hio, hal⟩ := hnc ⟨hmeth, hcr⟩
    refine ⟨_, rfl, ?_, rfl, rfl, rfl, rfl, rfl⟩
    refine ⟨?_, fun hx => ?_, fun _ => ?_, fun hx => ?_⟩
    · dsimp only
      omega
    · exact absurd hx.2 (by rw [hcr]; exact Bool.false_ne_true)
    · dsimp only
      exact ⟨rfl, hal⟩
    · exact absurd hmeth hx
  | aes =>
    exfalso
    unfold ZIP_seek_branch at hbr
    rw [haes] at hbr
    split at hbr
    · simp at hbr
    · rw [if_neg Bool.false_ne_true] at hbr
      simp at hbr
  | scan =>
    by_cases hlt : offset < f.uncompressed_position
    · rw [if_pos hlt]
      have hcres := zip_seek_reset_coherent f hc
      obtain ⟨f1, hloop, hcoh1, hp1, he1, ha1, hk1, hi1⟩ :=
        ZIP_seek_loop_spec (zip_seek_reset f) offset hcres haes
          (Nat.zero_le offset) h2
      exact ⟨f1, hloop, hcoh1, hp1, he1, ha1, hk1, hi1⟩
    · rw [if_neg hlt]
      exact ZIP_seek_loop_spec f offset hc haes (by omega) h2

/-- Claim C1: for every open read stream over a regular entry and all `n`,
`k` with `n + k ≤ uncompressed_size`, `seek(n); read(k)` delivers the same
bytes as `seek(0); read(n); read(k)`, for Stored and DEFLATE members and for
the none/classic cipher states (`ZIP_IS_AES = false`).  The stream is any
coherent state, covering every state reachable after open.  The
`2 ^ 32` bound records that the C position counters are `PHYSFS_uint32`, so
the `Nat` model coincides with the code exactly on entries below 4 GiB. -/
theorem claim_C1_seek_read_consistency (f : ZIPfileinfo) (n k : Nat)
    (hc : Coherent f) (haes : ZIP_IS_AES f.entry = false)
    (hbound : f.entry.uncompressed_size < 2 ^ 32)
    (hnk : n + k ≤ f.entry.uncompressed_size) :
    ∃ f1 f2, ZIP_seek f n = .ok f1 ∧ ZIP_seek f 0 = .ok f2 ∧
      (ZIP_read f1 k).1 = (ZIP_read ((ZIP_read f2 n).2) k).1 := by
  obtain ⟨f1, hs1, hc1, hp1, he1, ha1, hk1, hi1⟩ :=
    ZIP_seek_spec f n hc haes (by omega)
  obtain ⟨f2, hs2, hc2, hp2, he2, ha2, hk2, hi2⟩ :=
    ZIP_seek_spec f 0 hc haes (by omega)
  refine ⟨f1, f2, hs1, hs2, ?_⟩
  obtain ⟨hby1, _, _, _, _, _, _⟩ :=
    ZIP_read_spec f1 k hc1 (by rw [he1]; exact haes)
  obtain ⟨hby2, hpp2, hcc2, hee2, haa2, hkk2, hii2⟩ :=
    ZIP_read_spec f2 n hc2 (by rw [he2]; exact haes)
  obtain ⟨hby3, _, _, _, _, _, _⟩ :=
    ZIP_read_spec (ZIP_read f2 n).2 k hcc2 (by rw [hee2, he2]; exact haes)
  have hcf1 : streamContent f1 = streamContent f :=
    streamContent_congr f f1 he1 ha1 hk1 hi1
  have hcf2 : streamContent f2 = streamContent f :=
    streamContent_congr f f2 he2 ha2 hk2 hi2
  have hcf3 : streamContent (ZIP_read f2 n).2 = streamContent f2 :=
    streamContent_congr f2 _ hee2 haa2 hkk2 hii2
  have hpos3 : (ZIP_read f2 n).2.uncompressed_position = n := by
    rw [hpp2, hp2, he2]
    omega
  rw [hby1, hby3, hcf1, hcf3, hcf2, hp1, hpos3, hee2, he2, he1]

/-- The concrete stream `wStream` is coherent. -/
theorem wStream_coherent : Coherent wStream := by
  refine ⟨by decide, fun hx => ?_, fun _ => ⟨by decide, by decide⟩, fun hx => ?_⟩
  · exact absurd hx.2 (by decide)
  · exact absurd (by decide : wStream.entry.compression_method = COMPMETH_NONE) hx

/-- Witness for claim C1 at the concrete Stored stream `wStream` with
`n = 1`, `k = 2`. -/
theorem claim_C1_witness :
    Coherent wStream ∧ ZIP_IS_AES wStream.entry = false ∧
    wStream.entry.uncompressed_size < 2 ^ 32 ∧
    1 + 2 ≤ wStream.entry.uncompressed_size ∧
    (∃ f1 f2, ZIP_seek wStream 1 = .ok f1 ∧ ZIP_seek wStream 0 = .ok f2 ∧
      (ZIP_read f1 2).1 = (ZIP_read ((ZIP_read f2 1).2) 2).1) :=
  ⟨wStream_coherent, by decide, by decide, by decide,
   claim_C1_seek_read_consistency wStream 1 2 wStream_coherent (by decide)
     (by decide) (by decide)⟩

/-- Claim C9: seeking strictly past `uncompressed_size` fails `PastEof`
(the check is the first statement of `ZIP_seek`, before any state is
touched, which the model reflects by returning the error without a
successor state), while seeking to exactly `uncompressed_size` succeeds on
every branch — direct reposition, AES reposition, and rewind-and-scan —
and every subsequent read returns 0 bytes and leaves the stream
unchanged. -/
theorem claim_C9_seek_eof (f : ZIPfileinfo) (d k : Nat) (hc : Coherent f)
    (hd : 1 ≤ d) :
    ZIP_seek f (f.entry.uncompressed_size + d) = .error .pastEof ∧
    ∃ f1, ZIP_seek f f.entry.uncompressed_size = .ok f1 ∧
      ZIP_read f1 k = ([], f1) := by
  constructor
  · unfold ZIP_seek
    rw [if_pos (by omega)]
  · cases hb : ZIP_seek_branch f.entry with
    | direct =>
      refine ⟨{ f with
          iopos := f.entry.offset + f.entry.uncompressed_size,
          uncompressed_position := f.entry.uncompressed_size }, ?_, ?_⟩
      · unfold ZIP_seek
        rw [if_neg (by omega), hb]
      · unfold ZIP_read
        dsimp only
        rw [if_pos (by omega :
            min k (f.entry.uncompressed_size - f.entry.uncompressed_size) = 0)]
    | aes =>
      refine ⟨{ f with
          iopos := f.entry.offset + f.entry.uncompressed_size,
          uncompressed_position := f.entry.uncompressed_size }, ?_, ?_⟩
      · unfold ZIP_seek
        rw [if_neg (by omega), hb]
      · unfold ZIP_read
        dsimp only
        rw [if_pos (by omega :
            min k (f.entry.uncompressed_size - f.entry.uncompressed_size) = 0)]
    | scan =>
      have haes : ZIP_IS_AES f.entry = false := by
        cases hA : ZIP_IS_AES f.entry with
        | false => rfl
        | true =>
          exfalso
          unfold ZIP_seek_branch at hb
          rw [hA] at hb
          split at hb
          · simp at hb
          · rw [if_pos rfl] at hb
            simp at hb
      obtain ⟨f1, hs, hc1, hp1, he1, _, _, _⟩ :=
        ZIP_seek_spec f f.entry.uncompressed_size hc haes le_rfl
      refine ⟨f1, hs, ?_⟩
      have h0 : min k (f1.entry.uncompressed_size - f1.uncompressed_position) = 0 := by
        rw [he1, hp1]
        omega
      unfold ZIP_read
      rw [if_pos h0]

/-- Witness for claim C9 at the concrete stream `wStream` with `d = 1`,
`k = 4`. -/
theorem claim_C9_witness :
    Coherent wStream ∧ 1 ≤ 1 ∧
    (ZIP_seek wStream (wStream.entry.uncompressed_size + 1) = .error .pastEof ∧
     ∃ f1, ZIP_seek wStream wStream.entry.uncompressed_size = .ok f1 ∧
       ZIP_read f1 4 = ([], f1)) :=
  ⟨wStream_coherent, by decide,
   claim_C9_seek_eof wStream 1 4 wStream_coherent (by decide)⟩

/-- Claim C5: an entry whose recorded AES key-strength code is
`ZIP_AES_128_BITS` is never AES for the engine: `ZIP_IS_AES` is false, the
decrypt path taken inside `zip_read_decrypt` is never the AES path, and the
`ZIP_seek` branch is never the AES branch; entries with the 192- or 256-bit
codes do satisfy `ZIP_IS_AES`. -/
theorem claim_C5_aes_excludes_128 (e : ZIPentry) :
    (e.aes_key_strength = ZIP_AES_128_BITS →
      ZIP_IS_AES e = false ∧ zip_read_decrypt_path e ≠ DecryptPath.aes ∧
      ZIP_seek_branch e ≠ SeekBranch.aes) ∧
    ((e.aes_key_strength = ZIP_AES_192_BITS ∨
      e.aes_key_strength = ZIP_AES_256_BITS) → ZIP_IS_AES e = true) := by
  constructor
  · intro h
    have haes : ZIP_IS_AES e = false := by
      unfold ZIP_IS_AES
      rw [h]
      rfl
    refine ⟨haes, ?_, ?_⟩
    · unfold zip_read_decrypt_path
      split
      · rw [if_neg (by rw [haes]; exact Bool.false_ne_true)]
        simp
      · simp
    · unfold ZIP_seek_branch
      split
      · simp
      · rw [if_neg (by rw [haes]; exact Bool.false_ne_true)]
        simp
  · intro h
    unfold ZIP_IS_AES
    rcases h with h | h <;> rw [h] <;> rfl

/-- Witness for claim C5 at two concrete entries with key-strength codes 1
and 2. -/
theorem claim_C5_witness :
    (ZIP_IS_AES { baseEntry with aes_key_strength := 1 } = false ∧
     zip_read_decrypt_path { baseEntry with aes_key_strength := 1 } ≠ DecryptPath.aes ∧
     ZIP_seek_branch { baseEntry with aes_key_strength := 1 } ≠ SeekBranch.aes) ∧
    ZIP_IS_AES { baseEntry with aes_key_strength := 2 } = true :=
  ⟨(claim_C5_aes_excludes_128 _).1 rfl,
   (claim_C5_aes_excludes_128 _).2 (Or.inl rfl)⟩

/-- Boolean unfolding of `zip_has_symlink_attr`. -/
theorem zip_has_symlink_attr_iff (e : ZIPentry) (extern_attr : Nat) :
    zip_has_symlink_attr e extern_attr = true ↔
      (zip_version_does_symlinks e.version = true ∧
       0 < e.uncompressed_size ∧
       ((extern_attr / 2 ^ 16) &&& 0xFFFF) &&& UNIX_FILETYPE_MASK
         = UNIX_FILETYPE_SYMLINK) := by
  unfold zip_has_symlink_attr
  simp [Bool.and_eq_true, and_assoc]

/-- Counterexample to claim C4 as stated: `c4Entry` is a record whose
external attributes (0xA0000000) encode UNIX file type 0120000 and whose
made-by host (3, UNIX) is unix-like, yet with `uncompressed_size = 0` the
loader assigns `UnresolvedFile`, not `UnresolvedSymlink` — the claim omits
the `uncompressed_size > 0` condition of `zip_has_symlink_attr`. -/
theorem claim_C4_counterexample :
    zip_version_does_symlinks c4Entry.version = true ∧
    ((0xA0000000 / 2 ^ 16) &&& 0xFFFF) &&& UNIX_FILETYPE_MASK
      = UNIX_FILETYPE_SYMLINK ∧
    zip_load_entry_resolved c4Entry 0xA0000000 false
      = ZipResolveType.unresolvedFile := by
  refine ⟨by decide, by decide, ?_⟩
  rfl

/-- Claim C4, amended: for a record whose name does not end in `/`, the
resolution state is `UnresolvedSymlink` exactly when the external-attribute
high 16 bits encode UNIX file type 0120000, the made-by host is unix-like
(`zip_version_does_symlinks`), **and** the entry's `uncompressed_size` is
non-zero; in every other case it is `UnresolvedFile`. -/
theorem claim_C4_amended (e : ZIPentry) (extern_attr : Nat) :
    (zip_load_entry_resolved e extern_attr false
        = ZipResolveType.unresolvedSymlink ↔
      (zip_version_does_symlinks e.version = true ∧
       0 < e.uncompressed_size ∧
       ((extern_attr / 2 ^ 16) &&& 0xFFFF) &&& UNIX_FILETYPE_MASK
         = UNIX_FILETYPE_SYMLINK)) ∧
    (zip_load_entry_resolved e extern_attr false
        = ZipResolveType.unresolvedFile ↔
      ¬(zip_version_does_symlinks e.version = true ∧
        0 < e.uncompressed_size ∧
        ((extern_attr / 2 ^ 16) &&& 0xFFFF) &&& UNIX_FILETYPE_MASK
          = UNIX_FILETYPE_SYMLINK)) := by
  have hiff := zip_has_symlink_attr_iff e extern_attr
  unfold zip_load_entry_resolved
  rw [if_neg Bool.false_ne_true]
  by_cases h : zip_has_symlink_attr e extern_attr = true
  · rw [if_pos h]
    constructor
    · exact ⟨fun _ => hiff.mp h, fun _ => rfl⟩
    · constructor
      · intro habs
        exact absurd habs (by simp)
      · intro hn
        exact absurd (hiff.mp h) hn
  · rw [if_neg h]
    constructor
    · constructor
      · intro habs
        exact absurd habs (by simp)
      · intro hcond
        exact absurd (hiff.mpr hcond) h
    · exact ⟨fun _ => fun hcond => h (hiff.mpr hcond), fun _ => rfl⟩

/-- Claim C6 (code bug): the EOCD locator misses a signature at absolute
file position 0.  `emptyZipEOCD` is the 22-byte empty-archive EOCD record —
its signature sits at position 0, well within the last 65557 bytes — yet
`zip_find_end_of_central_dir` fails with `Unsupported`, because the scan
loop `for (i = maxread - 4; i > 0; i--)` never tests buffer index 0 and the
`filepos` clamp gives that index no later chance. -/
theorem claim_C6_eocd_misses_position_zero :
    zip_find_end_of_central_dir emptyZipEOCD = .error .unsupported ∧
    emptyZipEOCD.length = 22 ∧
    zip_eocd_sig_at emptyZipEOCD 0 = true := by
  exact ⟨rfl, rfl, rfl⟩

set_option maxRecDepth 8000 in
/-- Counterexample to claim C2 as stated: with general-purpose bit 3 set the
code verifies the 12th decrypted header byte against
`(dos_mod_time >> 8) & 0xFF` — byte 1 of the 32-bit field — not against its
high byte `(dos_mod_time >> 24) & 0xFF`.  For `c2Entry`
(`dos_mod_time = 64512 = 252 * 256`), the all-zero header under the empty
password decrypts with 12th byte 252, so `zip_prep_crypto_keys` succeeds,
although that byte differs from the high byte (0) of `dos_mod_time`; the
claim would require this open to fail `BadPassword`. -/
theorem claim_C2_counterexample :
    (∃ ks, zip_prep_crypto_keys c2Entry (List.replicate 12 0) [] = .ok ks) ∧
    zip_entry_ignore_local_header c2Entry = true ∧
    (zip_decrypt_list (zip_initial_keys []) (List.replicate 12 0)).1.getD 11 0
      ≠ (c2Entry.dos_mod_time / 2 ^ 24) &&& 0xFF := by
  refine ⟨⟨_, rfl⟩, rfl, by decide⟩

/-- Claim C2, amended: after decrypting all 12 crypto-header bytes, the 12th
decrypted byte must equal the high byte of the entry's CRC-32 when bit 3 of
`general_bits` is clear, or byte 1 of `dos_mod_time` (bits 8–15, the high
byte of its 16-bit DOS time half) when bit 3 is set; on mismatch the open
fails with `BadPassword`. -/
theorem claim_C2_amended (e : ZIPentry) (hdr pwd : List Nat)
    (hlen : hdr.length = 12) :
    ((∃ ks, zip_prep_crypto_keys e hdr pwd = .ok ks) ↔
      (zip_decrypt_list (zip_initial_keys pwd) hdr).1.getD 11 0 =
        (if e.general_bits &&& 8 ≠ 0 then e.dos_mod_time / 2 ^ 8
         else e.crc / 2 ^ 24) &&& 0xFF) ∧
    ((zip_decrypt_list (zip_initial_keys pwd) hdr).1.getD 11 0 ≠
        (if e.general_bits &&& 8 ≠ 0 then e.dos_mod_time / 2 ^ 8
         else e.crc / 2 ^ 24) &&& 0xFF →
      zip_prep_crypto_keys e hdr pwd = .error .badPassword) := by
  have hdl : (zip_decrypt_list (zip_initial_keys pwd) hdr).1.length = 12 := by
    rw [zip_decrypt_list_length, hlen]
  have hbridge : (zip_decrypt_list (zip_initial_keys pwd) hdr).1.getLastD 0
      = (zip_decrypt_list (zip_initial_keys pwd) hdr).1.getD 11 0 := by
    rw [List.getLastD_eq_getLast?, List.getLast?_eq_getElem?, hdl,
        List.getD_eq_getElem?_getD]
  have hvv : (if zip_entry_ignore_local_header e = true
        then e.dos_mod_time / 2 ^ 8 else e.crc / 2 ^ 24) &&& 0xFF
      = (if e.general_bits &&& 8 ≠ 0
        then e.dos_mod_time / 2 ^ 8 else e.crc / 2 ^ 24) &&& 0xFF := by
    congr 1
    exact if_congr (by unfold zip_entry_ignore_local_header
                       exact decide_eq_true_iff) rfl rfl
  constructor
  · constructor
    · rintro ⟨ks, hok⟩
      by_contra hne
      have hbad : zip_prep_crypto_keys e hdr pwd = .error .badPassword := by
        unfold zip_prep_crypto_keys
        dsimp only
        rw [if_pos (by rw [hbridge, hvv]; exact hne)]
      rw [hok] at hbad
      exact absurd hbad (by simp)
    · intro heq
      refine ⟨(zip_decrypt_list (zip_initial_keys pwd) hdr).2, ?_⟩
      unfold zip_prep_crypto_keys
      dsimp only
      rw [if_neg (by rw [hbridge, hvv]; exact not_not_intro heq)]
  · intro hne
    unfold zip_prep_crypto_keys
    dsimp only
    rw [if_pos (by rw [hbridge, hvv]; exact hne)]

/-- Witness for the amended claim C2 at `c2Entry` with the all-zero header
and the empty password. -/
theorem claim_C2_witness :
    (List.replicate 12 (0 : Nat)).length = 12 ∧
    (((∃ ks, zip_prep_crypto_keys c2Entry (List.replicate 12 0) [] = .ok ks) ↔
      (zip_decrypt_list (zip_initial_keys []) (List.replicate 12 0)).1.getD 11 0 =
        (if c2Entry.general_bits &&& 8 ≠ 0 then c2Entry.dos_mod_time / 2 ^ 8
         else c2Entry.crc / 2 ^ 24) &&& 0xFF) ∧
    ((zip_decrypt_list (zip_initial_keys []) (List.replicate 12 0)).1.getD 11 0 ≠
        (if c2Entry.general_bits &&& 8 ≠ 0 then c2Entry.dos_mod_time / 2 ^ 8
         else c2Entry.crc / 2 ^ 24) &&& 0xFF →
      zip_prep_crypto_keys c2Entry (List.replicate 12 0) []
        = .error .badPassword)) :=
  ⟨rfl, claim_C2_amended c2Entry (List.replicate 12 0) [] rfl⟩

/-- Counterexample to claim C3 as stated: the 0xFFFFFFFF exception applies
only to the size fields, not to `crc`.  `c3Header` matches `c3Entry` in
every checked field but stores 0xFFFFFFFF as its local `crc`
(`c3Entry.crc = 5`): `zip_parse_local` fails `Corrupt`, while the same
header with `crc = 0` is accepted — the claim says 0xFFFFFFFF would be
accepted as well. -/
theorem claim_C3_counterexample :
    zip_parse_local c3Entry c3Header [] 0 = .error .corrupt ∧
    c3Header.crc = 0xFFFFFFFF ∧
    c3Header.compressed_size = c3Entry.compressed_size ∧
    c3Header.uncompressed_size = c3Entry.uncompressed_size ∧
    c3Header.sig = ZIP_LOCAL_FILE_SIG ∧
    c3Header.version_needed = c3Entry.version_needed ∧
    zip_parse_local c3Entry { c3Header with crc := 0 } [] 0
      = .ok { c3Entry with offset := 33 } := by
  exact ⟨rfl, rfl, rfl, rfl, rfl, rfl, rfl⟩

/-- Claim C3, amended: during first-time resolution of a non-AES entry with
matching signature and `version_needed`, the local `crc` is accepted
without comparison only when it is 0 (JAR convention) and otherwise must
equal the central-directory `crc`, while the local `compressed_size` and
`uncompressed_size` are checked against the central values with both the 0
and the 0xFFFFFFFF exceptions; any failed check surfaces as `Corrupt`. -/
theorem claim_C3_amended (e : ZIPentry) (h : LocalHeader) (salt : List Nat)
    (pv : Nat) (hsig : h.sig = ZIP_LOCAL_FILE_SIG)
    (hvn : h.version_needed = e.version_needed)
    (haes : ZIP_IS_AES e = false) :
    (zip_parse_local e h salt pv
        = .ok { e with offset := e.offset + h.fnamelen + h.extralen + 30 } ↔
      ((h.crc = 0 ∨ h.crc = e.crc) ∧
       (h.compressed_size = 0 ∨ h.compressed_size = 0xFFFFFFFF ∨
        h.compressed_size = e.compressed_size) ∧
       (h.uncompressed_size = 0 ∨ h.uncompressed_size = 0xFFFFFFFF ∨
        h.uncompressed_size = e.uncompressed_size))) ∧
    (¬((h.crc = 0 ∨ h.crc = e.crc) ∧
       (h.compressed_size = 0 ∨ h.compressed_size = 0xFFFFFFFF ∨
        h.compressed_size = e.compressed_size) ∧
       (h.uncompressed_size = 0 ∨ h.uncompressed_size = 0xFFFFFFFF ∨
        h.uncompressed_size = e.uncompressed_size)) →
      zip_parse_local e h salt pv = .error .corrupt) := by
  have hP : zip_parse_local e h salt pv =
      (if h.crc ≠ 0 ∧ h.crc ≠ e.crc then .error .corrupt
       else if h.compressed_size ≠ 0 ∧ h.compressed_size ≠ 0xFFFFFFFF ∧
           h.compressed_size ≠ e.compressed_size then .error .corrupt
       else if h.uncompressed_size ≠ 0 ∧ h.uncompressed_size ≠ 0xFFFFFFFF ∧
           h.uncompressed_size ≠ e.uncompressed_size then .error .corrupt
       else .ok { e with offset := e.offset + h.fnamelen + h.extralen + 30 }) := by
    unfold zip_parse_local
    rw [if_neg (not_not_intro hsig), if_neg (not_not_intro hvn),
        if_neg (by simp [haes])]
    by_cases h1 : h.crc ≠ 0 ∧ h.crc ≠ e.crc
    · rw [if_pos h1, if_pos h1]
    · rw [if_neg h1, if_neg h1]
      by_cases h2 : h.compressed_size ≠ 0 ∧ h.compressed_size ≠ 0xFFFFFFFF ∧
          h.compressed_size ≠ e.compressed_size
      · rw [if_pos h2, if_pos h2]
      · rw [if_neg h2, if_neg h2]
        by_cases h3 : h.uncompressed_size ≠ 0 ∧ h.uncompressed_size ≠ 0xFFFFFFFF ∧
            h.uncompressed_size ≠ e.uncompressed_size
        · rw [if_pos h3, if_pos h3]
        · rw [if_neg h3, if_neg h3]
          dsimp only
          rw [if_neg (by simpa [ZIP_IS_AES] using haes)]
  rw [hP]
  by_cases h1 : h.crc ≠ 0 ∧ h.crc ≠ e.crc
  · rw [if_pos h1]
    constructor
    · constructor
      · intro habs
        exact absurd habs (by simp)
      · intro hcond
        exact absurd hcond.1 (by tauto)
    · intro _
      rfl
  · rw [if_neg h1]
    by_cases h2 : h.compressed_size ≠ 0 ∧ h.compressed_size ≠ 0xFFFFFFFF ∧
        h.compressed_size ≠ e.compressed_size
    · rw [if_pos h2]
      constructor
      · constructor
        · intro habs
          exact absurd habs (by simp)
        · intro hcond
          exact absurd hcond.2.1 (by tauto)
      · intro _
        rfl
    · rw [if_neg h2]
      by_cases h3 : h.uncompressed_size ≠ 0 ∧ h.uncompressed_size ≠ 0xFFFFFFFF ∧
          h.uncompressed_size ≠ e.uncompressed_size
      · rw [if_pos h3]
        constructor
        · constructor
          · intro habs
            exact absurd habs (by simp)
          · intro hcond
            exact absurd hcond.2.2 (by tauto)
        · intro _
          rfl
      · rw [if_neg h3]
        constructor
        · constructor
          · intro _
            refine ⟨by tauto, by tauto, by tauto⟩
          · intro _
            rfl
        · intro hn
          exact absurd ⟨by tauto, by tauto, by tauto⟩ hn

/-- Witness for the amended claim C3 at `c3Entry` with the matching header
`c3Header` whose `crc` is rewritten to the accepted value 0. -/
theorem claim_C3_witness :
    ({ c3Header with crc := 0 } : LocalHeader).sig = ZIP_LOCAL_FILE_SIG ∧
    ({ c3Header with crc := 0 } : LocalHeader).version_needed
      = c3Entry.version_needed ∧
    ZIP_IS_AES c3Entry = false ∧
    ((zip_parse_local c3Entry { c3Header with crc := 0 } [] 0
        = .ok { c3Entry with offset := c3Entry.offset +
            ({ c3Header with crc := 0 } : LocalHeader).fnamelen +
            ({ c3Header with crc := 0 } : LocalHeader).extralen + 30 } ↔
      ((({ c3Header with crc := 0 } : LocalHeader).crc = 0 ∨
        ({ c3Header with crc := 0 } : LocalHeader).crc = c3Entry.crc) ∧
       (({ c3Header with crc := 0 } : LocalHeader).compressed_size = 0 ∨
        ({ c3Header with crc := 0 } : LocalHeader).compressed_size = 0xFFFFFFFF ∨
        ({ c3Header with crc := 0 } : LocalHeader).compressed_size
          = c3Entry.compressed_size) ∧
       (({ c3Header with crc := 0 } : LocalHeader).uncompressed_size = 0 ∨
        ({ c3Header with crc := 0 } : LocalHeader).uncompressed_size = 0xFFFFFFFF ∨
        ({ c3Header with crc := 0 } : LocalHeader).uncompressed_size
          = c3Entry.uncompressed_size)))) :=
  ⟨rfl, rfl, rfl,
   (claim_C3_amended c3Entry { c3Header with crc := 0 } [] 0 rfl rfl rfl).1⟩

/-- Claim C7: when a newly parsed central-directory record's name matches an
already-inserted entry under the case-insensitive lookup, loading fails
`Corrupt` if the existing entry's `last_mod_time` is non-zero, and otherwise
the existing entry has the record's `offset`, `version`, `version_needed`,
`compression_method`, `crc`, `compressed_size`, `uncompressed_size` and
`last_mod_time` written over its own (`zip_promote_placeholder`) and the
loop continues with the remaining records. -/
theorem claim_C7_duplicate_handling (nameEq : Name → Name → Bool)
    (entries : List ZIPentry) (e fnd : ZIPentry) (rest : List ZIPentry)
    (hfind : zip_find_entry nameEq entries e.name = some fnd) :
    zip_load_entries_loop nameEq entries (e :: rest)
      = (if fnd.last_mod_time ≠ 0 then .error .corrupt
         else zip_load_entries_loop nameEq
           (zip_replace_entry nameEq entries e.name
             (zip_promote_placeholder fnd e))
           rest) := by
  conv_lhs => unfold zip_load_entries_loop
  rw [hfind]

/-- Witness for claim C7: a placeholder entry `a` with zero `last_mod_time`
is promoted by the colliding record `c7Record` and loading continues. -/
theorem claim_C7_witness :
    zip_find_entry exactNameEq [c7Existing] c7Record.name = some c7Existing ∧
    zip_load_entries_loop exactNameEq [c7Existing] [c7Record]
      = (if c7Existing.last_mod_time ≠ 0 then .error .corrupt
         else zip_load_entries_loop exactNameEq
           (zip_replace_entry exactNameEq [c7Existing] c7Record.name
             (zip_promote_placeholder c7Existing c7Record)) []) :=
  ⟨rfl, claim_C7_duplicate_handling exactNameEq [c7Existing] c7Record
    c7Existing [] rfl⟩

/-- Lookups after a state update: updating the resolution state of the
entry named `a` changes what a lookup of `b` finds only by that same field
update (names are untouched). -/
theorem zip_find_entry_set_resolved (entries : List ZIPentry) (a b : Name)
    (v : ZipResolveType) :
    zip_find_entry exactNameEq (zip_set_resolved exactNameEq entries a v) b
      = (zip_find_entry exactNameEq entries b).map
          (fun e => if e.name == a then { e with resolved := v } else e) := by
  unfold zip_find_entry zip_set_resolved exactNameEq
  induction entries with
  | nil => rfl
  | cons x xs ih =>
    have hname : (if x.name == a then { x with resolved := v } else x).name
        = x.name := by
      split <;> rfl
    simp only [List.map_cons, List.find?_cons]
    cases hx : x.name == b with
    | true =>
      rw [show ((if x.name == a then { x with resolved := v } else x).name == b)
            = true from by rw [hname]; exact hx]
      rfl
    | false =>
      rw [show ((if x.name == a then { x with resolved := v } else x).name == b)
            = false from by rw [hname]; exact hx]
      exact ih

/-- One step of `zip_resolve` on an entry whose state is `Resolving`:
immediate `SymlinkLoop`. -/
theorem zip_resolve_resolving_step (env : ResolveEnv) (f : Nat)
    (st : List ZIPentry) (m : Name) (em : ZIPentry)
    (hm : zip_find_entry env.nameEq st m = some em)
    (hres : em.resolved = .resolving) :
    zip_resolve env (f + 1) st m = (st, .error .symlinkLoop) := by
  unfold zip_resolve
  rw [hm]
  dsimp only
  rw [show em.resolved = ZipResolveType.resolving from hres]

/-- One step of `zip_resolve` on an `UnresolvedSymlink` entry: mark it
`Resolving`, follow the expanded link target, and wrap failures into
`BrokenSymlink` while propagating the inner error. -/
theorem zip_resolve_symlink_step (env : ResolveEnv) (f : Nat)
    (st : List ZIPentry) (m : Name) (em : ZIPentry)
    (hm : zip_find_entry env.nameEq st m = some em)
    (hsym : em.resolved = .unresolvedSymlink) :
    zip_resolve env (f + 1) st m =
      (match zip_find_entry env.nameEq
          (zip_set_resolved env.nameEq st m .resolving)
          (env.expand (env.linkData m)) with
       | none => (zip_set_resolved env.nameEq
           (zip_set_resolved env.nameEq st m .resolving) m .brokenSymlink,
           .error .notFound)
       | some t =>
         match zip_resolve env f
             (zip_set_resolved env.nameEq st m .resolving) t.name with
         | (st2, .error c) =>
           (zip_set_resolved env.nameEq st2 m .brokenSymlink, .error c)
         | (st2, .ok ()) =>
           match zip_find_entry env.nameEq st2 t.name with
           | none => (zip_set_resolved env.nameEq st2 m .brokenSymlink,
               .error .notFound)
           | some t2 =>
             ((zip_set_resolved env.nameEq
                 (zip_set_symlink env.nameEq st2 m (some (t2.symlink.getD t2.name)))
                 m .resolved),
              .ok ())) := by
  conv_lhs => unfold zip_resolve
  rw [hm]
  dsimp only
  rw [show em.resolved = ZipResolveType.unresolvedSymlink from hsym]

/-- A lookup is unaffected by a state update of a differently named
entry. -/
theorem zip_find_entry_set_resolved_ne (st : List ZIPentry) (a b : Name)
    (v : ZipResolveType) (e : ZIPentry)
    (hfind : zip_find_entry exactNameEq st b = some e) (hn : e.name = b)
    (hab : ¬(b = a)) :
    zip_find_entry exactNameEq (zip_set_resolved exactNameEq st a v) b
      = some e := by
  rw [zip_find_entry_set_resolved, hfind]
  simp only [Option.map_some']
  rw [show (e.name == a) = false from by
        rw [hn]; exact beq_eq_false_iff_ne.mpr hab,
      if_neg Bool.false_ne_true]

/-- Looking up the entry whose state was just updated yields the updated
entry. -/
theorem zip_find_entry_set_resolved_self (st : List ZIPentry) (a : Name)
    (v : ZipResolveType) (e : ZIPentry)
    (hfind : zip_find_entry exactNameEq st a = some e) (hn : e.name = a) :
    zip_find_entry exactNameEq (zip_set_resolved exactNameEq st a v) a
      = some { e with resolved := v } := by
  rw [zip_find_entry_set_resolved, hfind]
  simp only [Option.map_some']
  rw [show (e.name == a) = true from by rw [hn]; exact beq_self_eq_true a,
      if_pos rfl]

/-- Core of the symlink-cycle argument: resolving an `UnresolvedSymlink`
entry `m` whose link chain runs through `todo` (all `UnresolvedSymlink`)
and ends at an entry `z` already marked `Resolving` fails with
`SymlinkLoop`, for any sufficient fuel. -/
theorem zip_resolve_cycle_aux (expand linkData : Name → Name) :
    ∀ (todo : List Name) (f : Nat) (st : List ZIPentry) (m z : Name),
    (∀ m' ∈ (m :: todo), ∃ e, zip_find_entry exactNameEq st m' = some e ∧
        e.resolved = .unresolvedSymlink ∧ e.name = m') →
    (∃ ez, zip_find_entry exactNameEq st z = some ez ∧
        ez.resolved = .resolving ∧ ez.name = z) →
    CycleChain expand linkData z (m :: todo) →
    (m :: todo).Nodup → z ∉ (m :: todo) →
    todo.length + 1 < f →
    (zip_resolve ⟨exactNameEq, expand, linkData⟩ f st m).2
      = .error .symlinkLoop := by
  intro todo
  induction todo with
  | nil =>
    intro f st m z hpresent hz hchain hnodup hznot hf
    obtain ⟨f1, rfl⟩ : ∃ f1, f = f1 + 1 := ⟨f - 1, by omega⟩
    obtain ⟨em, hm, hsym, hmname⟩ := hpresent m (List.mem_cons_self m [])
    obtain ⟨ez, hzf, hzres, hzname⟩ := hz
    rw [zip_resolve_symlink_step _ f1 st m em hm hsym]
    dsimp only
    have hlink : expand (linkData m) = z := hchain
    rw [hlink]
    have hzm : ¬(z = m) := by
      intro hzm
      exact hznot (hzm ▸ List.mem_cons_self m [])
    rw [zip_find_entry_set_resolved_ne st m z .resolving ez hzf hzname hzm]
    dsimp only
    obtain ⟨f2, rfl⟩ : ∃ f2, f1 = f2 + 1 := ⟨f1 - 1, by omega⟩
    rw [hzname]
    rw [zip_resolve_resolving_step _ f2 _ z ez
        (zip_find_entry_set_resolved_ne st m z .resolving ez hzf hzname hzm)
        hzres]
  | cons m2 rest ih =>
    intro f st m z hpresent hz hchain hnodup hznot hf
    obtain ⟨f1, rfl⟩ : ∃ f1, f = f1 + 1 := ⟨f - 1, by omega⟩
    obtain ⟨em, hm, hsym, hmname⟩ := hpresent m (List.mem_cons_self m _)
    obtain ⟨ez, hzf, hzres, hzname⟩ := hz
    rw [zip_resolve_symlink_step _ f1 st m em hm hsym]
    dsimp only
    rw [hchain.1]
    have hm2m : ¬(m2 = m) := by
      intro habs
      have := hnodup
      rw [List.nodup_cons] at this
      exact this.1 (habs ▸ List.mem_cons_self m2 rest)
    obtain ⟨em2, hm2f, hm2sym, hm2name⟩ :=
      hpresent m2 (List.mem_cons_of_mem m (List.mem_cons_self m2 rest))
    rw [zip_find_entry_set_resolved_ne st m m2 .resolving em2 hm2f hm2name hm2m]
    dsimp only
    rw [hm2name]
    have hpres1 : ∀ m' ∈ (m2 :: rest), ∃ e,
        zip_find_entry exactNameEq
          (zip_set_resolved exactNameEq st m .resolving) m' = some e ∧
        e.resolved = .unresolvedSymlink ∧ e.name = m' := by
      intro m' hm'
      obtain ⟨e', he'f, he'sym, he'name⟩ :=
        hpresent m' (List.mem_cons_of_mem m hm')
      have hm'm : ¬(m' = m) := by
        intro habs
        have := hnodup
        rw [List.nodup_cons] at this
        exact this.1 (habs ▸ hm')
      exact ⟨e', zip_find_entry_set_resolved_ne st m m' .resolving e' he'f
        he'name hm'm, he'sym, he'name⟩
    have hz1 : ∃ ez1, zip_find_entry exactNameEq
        (zip_set_resolved exactNameEq st m .resolving) z = some ez1 ∧
        ez1.resolved = .resolving ∧ ez1.name = z := by
      have hzm : ¬(z = m) := by
        intro habs
        exact hznot (habs ▸ List.mem_cons_self m _)
      exact ⟨ez, zip_find_entry_set_resolved_ne st m z .resolving ez hzf
        hzname hzm, hzres, hzname⟩
    have hih := ih f1 (zip_set_resolved exactNameEq st m .resolving) m2 z
      hpres1 hz1 hchain.2 (by
        have := hnodup
        rw [List.nodup_cons] at this
        exact this.2)
      (fun habs => hznot (List.mem_cons_of_mem m habs))
      (by simpa using Nat.lt_of_succ_lt_succ (by simpa using hf))
    cases hr : zip_resolve ⟨exactNameEq, expand, linkData⟩ f1
        (zip_set_resolved exactNameEq st m .resolving) m2 with
    | mk st2 res =>
      rw [hr] at hih
      dsimp only at hih
      rw [hih]

/-- Resolving the head of a symlink cycle fails `SymlinkLoop`: the head is
marked `Resolving`, the chain is walked through the remaining members, and
the final link back to the head re-enters the `Resolving` entry. -/
theorem zip_resolve_cycle (expand linkData : Name → Name)
    (st : List ZIPentry) (n0 : Name) (rest : List Name)
    (hpresent : ∀ m' ∈ (n0 :: rest), ∃ e,
        zip_find_entry exactNameEq st m' = some e ∧
        e.resolved = .unresolvedSymlink ∧ e.name = m')
    (hchain : CycleChain expand linkData n0 (n0 :: rest))
    (hnodup : (n0 :: rest).Nodup)
    (f : Nat) (hf : rest.length + 2 < f) :
    (zip_resolve ⟨exactNameEq, expand, linkData⟩ f st n0).2
      = .error .symlinkLoop := by
  obtain ⟨f1, rfl⟩ : ∃ f1, f = f1 + 1 := ⟨f - 1, by omega⟩
  obtain ⟨e0, h0f, h0sym, h0name⟩ := hpresent n0 (List.mem_cons_self n0 rest)
  rw [zip_resolve_symlink_step _ f1 st n0 e0 h0f h0sym]
  dsimp only
  cases rest with
  | nil =>
    have hlink : expand (linkData n0) = n0 := hchain
    rw [hlink]
    have hself := zip_find_entry_set_resolved_self st n0 .resolving e0 h0f h0name
    rw [hself]
    dsimp only
    obtain ⟨f2, rfl⟩ : ∃ f2, f1 = f2 + 1 := ⟨f1 - 1, by omega⟩
    rw [show ({ e0 with resolved := ZipResolveType.resolving } : ZIPentry).name
        = n0 from h0name]
    rw [zip_resolve_resolving_step _ f2 _ n0
        { e0 with resolved := .resolving } hself rfl]
  | cons m2 rest2 =>
    rw [hchain.1]
    have hm2ne : ¬(m2 = n0) := by
      have hn := hnodup
      rw [List.nodup_cons] at hn
      exact fun habs => hn.1 (habs ▸ List.mem_cons_self m2 rest2)
    obtain ⟨e2, h2f, h2sym, h2name⟩ :=
      hpresent m2 (List.mem_cons_of_mem n0 (List.mem_cons_self m2 rest2))
    rw [zip_find_entry_set_resolved_ne st n0 m2 .resolving e2 h2f h2name hm2ne]
    dsimp only
    rw [h2name]
    have hpres1 : ∀ m' ∈ (m2 :: rest2), ∃ e,
        zip_find_entry exactNameEq
          (zip_set_resolved exactNameEq st n0 .resolving) m' = some e ∧
        e.resolved = .unresolvedSymlink ∧ e.name = m' := by
      intro m' hm'
      obtain ⟨e', he'f, he'sym, he'name⟩ :=
        hpresent m' (List.mem_cons_of_mem n0 hm')
      have hne : ¬(m' = n0) := by
        have hn := hnodup
        rw [List.nodup_cons] at hn
        exact fun habs => hn.1 (habs ▸ hm')
      exact ⟨e', zip_find_entry_set_resolved_ne st n0 m' .resolving e' he'f
        he'name hne, he'sym, he'name⟩
    have hz1 : ∃ ez, zip_find_entry exactNameEq
        (zip_set_resolved exactNameEq st n0 .resolving) n0 = some ez ∧
        ez.resolved = .resolving ∧ ez.name = n0 :=
      ⟨{ e0 with resolved := .resolving },
        zip_find_entry_set_resolved_self st n0 .resolving e0 h0f h0name,
        rfl, h0name⟩
    have hznot : n0 ∉ (m2 :: rest2) := by
      have hn := hnodup
      rw [List.nodup_cons] at hn
      exact hn.1
    have hih := zip_resolve_cycle_aux expand linkData rest2 f1
      (zip_set_resolved exactNameEq st n0 .resolving) m2 n0 hpres1 hz1
      hchain.2 (by
        have hn := hnodup
        rw [List.nodup_cons] at hn
        exact hn.2)
      hznot (by simp only [List.length_cons] at hf; omega)
    cases hr : zip_resolve ⟨exactNameEq, expand, linkData⟩ f1
        (zip_set_resolved exactNameEq st n0 .resolving) m2 with
    | mk st2 res =>
      rw [hr] at hih
      dsimp only at hih
      rw [hih]

/-- **C8.** For every archive whose symlink entries form a cycle of
length ≥ 1 (entries `n0 :: rest`, each `UnresolvedSymlink`, each link
target the next name and the last pointing back at `n0`), `ZIP_openRead`
of a path on the cycle fails with `SymlinkLoop`: resolution marks each
visited entry `Resolving` and re-entering the `Resolving` head aborts with
the cycle error.  (Opening any other member of the cycle is this same
statement for the rotation of `n0 :: rest` starting there, over the same
archive.)  Fuel exceeding the cycle length stands for the unbounded C
recursion. -/
theorem claim_C8_symlink_cycle (expand linkData : Name → Name)
    (header : Name → List Nat) (hcB : Bool) (st : List ZIPentry)
    (n0 : Name) (rest : List Name)
    (hpresent : ∀ m' ∈ (n0 :: rest),
        zip_find_entry exactNameEq st m' = some (symEntry m'))
    (hchain : CycleChain expand linkData n0 (n0 :: rest))
    (hnodup : (n0 :: rest).Nodup)
    (f : Nat) (hf : rest.length + 2 < f) :
    ZIP_openRead ⟨exactNameEq, expand, linkData⟩ header f ⟨st, hcB⟩ n0
      = .error .symlinkLoop := by
  have hres := zip_resolve_cycle expand linkData st n0 rest
    (fun m' hm' => ⟨symEntry m', hpresent m' hm', rfl, rfl⟩) hchain hnodup f hf
  unfold ZIP_openRead
  dsimp only
  rw [hpresent n0 (List.mem_cons_self n0 rest)]
  dsimp only
  rw [show (symEntry n0).name = n0 from rfl]
  cases hr : zip_resolve ⟨exactNameEq, expand, linkData⟩ f st n0 with
  | mk st2 res =>
    rw [hr] at hres
    dsimp only at hres
    rw [hres]

/-- Witness for C8: the concrete two-entry cycle `a -> b -> a`; opening
`a` fails `SymlinkLoop`. -/
theorem claim_C8_witness :
    ZIP_openRead ⟨exactNameEq, id, cycLink⟩ (fun _ => []) 4
      ⟨cycSt, false⟩ ['a'] = .error .symlinkLoop :=
  claim_C8_symlink_cycle id cycLink (fun _ => []) false cycSt ['a'] [['b']]
    (by
      intro m' hm'
      rcases List.mem_cons.mp hm' with rfl | hm'
      · rfl
      · rcases List.mem_cons.mp hm' with rfl | hm'
        · rfl
        · exact absurd hm' (List.not_mem_nil m'))
    ⟨rfl, rfl⟩ (by decide) 4 (by decide)

/-- **C10** counterexample: the claim calls an entry "classic-encrypted"
exactly when bit 0 of `general_bits` is set, and asserts that opening such
an entry with no password suffix fails `BadPassword`.  But an AES entry
(key-strength code above 128-bit) also has bit 0 set, and `ZIP_openRead`
takes the AES branch before the password-presence check: the open
succeeds and returns a stream. -/
theorem claim_C10_counterexample :
    zip_entry_is_tradional_crypto c10AesEntry = true ∧
    ZIP_openRead ⟨exactNameEq, id, id⟩ (fun _ => []) 2
      ⟨[c10AesEntry], true⟩ ['b'] = .ok ⟨['b'], none⟩ :=
  ⟨rfl, rfl⟩

/-- **C10** amended: `ZIP_openRead` fails `BadPassword` (returning no
stream) in both password-presence mismatch cases, provided entry
resolution itself succeeds: (1) the direct lookup misses, the archive has
crypto entries, the `$password` suffix lookup hits an entry that is not
classic-encrypted (bit 0 of `general_bits` clear); (2) the direct lookup
(hence no password) hits a classic-encrypted entry that is not
AES-encrypted. -/
theorem claim_C10_amended (env : ResolveEnv) (header : Name → List Nat)
    (fuel : Nat) (info : ZIPinfoM) (filename key pw : Name) (e : ZIPentry) :
    (zip_find_entry env.nameEq info.entries filename = none →
     info.has_crypto = true →
     zip_split_password filename = some (key, pw) →
     zip_find_entry env.nameEq info.entries key = some e →
     (zip_resolve env fuel info.entries e.name).2 = .ok () →
     zip_entry_is_tradional_crypto e = false →
     ZIP_openRead env header fuel info filename = .error .badPassword) ∧
    (zip_find_entry env.nameEq info.entries filename = some e →
     (zip_resolve env fuel info.entries e.name).2 = .ok () →
     zip_entry_is_tradional_crypto e = true →
     ZIP_IS_AES e = false →
     ZIP_openRead env header fuel info filename = .error .badPassword) := by
  constructor
  · intro hdirect hcrypto hsplit hkey hres htrad
    unfold ZIP_openRead
    dsimp only
    rw [hdirect]
    dsimp only
    rw [hcrypto, if_pos rfl, hsplit]
    dsimp only
    rw [hkey]
    dsimp only
    cases hr : zip_resolve env fuel info.entries e.name with
    | mk st2 res =>
      rw [hr] at hres
      dsimp only at hres
      subst hres
      dsimp only
      rw [htrad, show (!false) = true from rfl, if_pos rfl,
          if_pos (show (some pw).isSome = true from rfl)]
  · intro hdirect hres htrad haes
    unfold ZIP_openRead
    dsimp only
    rw [hdirect]
    dsimp only
    cases hr : zip_resolve env fuel info.entries e.name with
    | mk st2 res =>
      rw [hr] at hres
      dsimp only at hres
      subst hres
      dsimp only
      rw [htrad, show (!true) = false from rfl, if_neg Bool.false_ne_true,
          haes, if_neg Bool.false_ne_true]

/-- Witness for C10: a `$p`-suffixed open of an unencrypted entry, and a
suffix-less open of a classic-PKWARE-encrypted (non-AES) entry, both fail
`BadPassword`. -/
theorem claim_C10_witness :
    (ZIP_openRead ⟨exactNameEq, id, id⟩ (fun _ => []) 2 ⟨[c10PlainEntry], true⟩
        ['a', '$', 'p'] = .error .badPassword) ∧
    (ZIP_openRead ⟨exactNameEq, id, id⟩ (fun _ => []) 2 ⟨[c10ClassicEntry], true⟩
        ['b'] = .error .badPassword) :=
  ⟨(claim_C10_amended ⟨exactNameEq, id, id⟩ (fun _ => []) 2
      ⟨[c10PlainEntry], true⟩ ['a', '$', 'p'] ['a'] ['p'] c10PlainEntry).1
      rfl rfl rfl rfl rfl rfl,
   (claim_C10_amended ⟨exactNameEq, id, id⟩ (fun _ => []) 2
      ⟨[c10ClassicEntry], true⟩ ['b'] [] [] c10ClassicEntry).2
      rfl rfl rfl rfl⟩

end PhysfsZip
